import Mathlib

/-!
Verification of the task-graph engine of the wip task tracker.

The definitions below are a shallow embedding of src/wip/model.py and the
state-mutating command logic of src/wip/cli.py.

Modelling conventions:
- Python ints are Nat (all ids and config values handled by the program are
  non-negative integers).
- The pool dict (keyed by str(id), insertion ordered, unique keys) is an
  association list of (Nat x Task) pairs keyed by the numeric id; lookup,
  deletion and update act on the first matching key, which agrees with dict
  semantics on the unique-key association lists the program produces.
- Python lists are Lean lists; list.pop(i) of the first matching index is
  remove_first; a list comprehension filtering out entries is List.filter.
- click.echo(..., err=True) followed by return is an error result of an
  Except; the CLI saves state only on success, so an error carries no state.
- datetime.now().isoformat() is an opaque String parameter called now.
-/

namespace Wip

structure Task where
  id : Nat
  title : String
  active : Bool
  created_at : String
deriving Repr, DecidableEq

structure Edge where
  from_id : Nat
  to_id : Nat
deriving Repr, DecidableEq

structure BlockedTask where
  id : Nat
  title : String
  blocker : String
  created_at : String
deriving Repr, DecidableEq

structure HistoryEntry where
  id : Nat
  title : String
  completed_at : String
  created_at : String
deriving Repr, DecidableEq

structure ShareConfig where
  enabled : Bool
  gist_id : Option String
  gist_url : Option String
deriving Repr, DecidableEq

structure Config where
  max_active : Nat
  stale_days : Nat
  share : ShareConfig
deriving Repr, DecidableEq

structure State where
  tasks : List (Nat × Task)
  edges : List Edge
  blocked : List BlockedTask
  history : List HistoryEntry
  next_id : Nat
  config : Config
deriving Repr, DecidableEq

/-- Python dict lookup: value of the first (unique) matching key. -/
def dict_find {α : Type} (m : List (Nat × α)) (k : Nat) : Option α :=
  (m.find? (fun p => p.1 == k)).map Prod.snd

/-- Python dict assignment d[k] = v: update in place if the key exists,
otherwise append at the end (dicts are insertion ordered). -/
def dict_insert {α : Type} : List (Nat × α) → Nat → α → List (Nat × α)
  | [], k, v => [(k, v)]
  | (k', v') :: rest, k, v =>
    if k' = k then (k, v) :: rest else (k', v') :: dict_insert rest k v

/-- Python del d[k]: remove the (unique) entry with the given key. -/
def dict_erase {α : Type} : List (Nat × α) → Nat → List (Nat × α)
  | [], _ => []
  | (k', v') :: rest, k =>
    if k' = k then rest else (k', v') :: dict_erase rest k

/-- In-place mutation of the task object held under a dict key
(task.active = b mutates the value of the unique entry with that key). -/
def update_first {α : Type} : List (Nat × α) → Nat → (α → α) → List (Nat × α)
  | [], _, _ => []
  | (k', v') :: rest, k, f =>
    if k' = k then (k', f v') :: rest else (k', v') :: update_first rest k f

/-- list.pop(i) at the first index satisfying p. -/
def remove_first {α : Type} (p : α → Bool) : List α → List α
  | [] => []
  | x :: xs => if p x then xs else x :: remove_first p xs

/-- State.get_task. -/
def get_task (s : State) (task_id : Nat) : Option Task :=
  dict_find s.tasks task_id

/-- State.get_blocked: first blocked entry with the id. -/
def get_blocked (s : State) (task_id : Nat) : Option BlockedTask :=
  s.blocked.find? (fun b => b.id == task_id)

/-- State.active_count. -/
def active_count (s : State) : Nat :=
  (s.tasks.filter (fun p => p.2.active)).length

/-- State.has_edge. -/
def has_edge (s : State) (from_id to_id : Nat) : Bool :=
  s.edges.any (fun e => e.from_id == from_id && e.to_id == to_id)

/-- State.get_edges_from. -/
def get_edges_from (s : State) (task_id : Nat) : List Edge :=
  s.edges.filter (fun e => e.from_id == task_id)

/-- State.get_edges_to. -/
def get_edges_to (s : State) (task_id : Nat) : List Edge :=
  s.edges.filter (fun e => e.to_id == task_id)

/-- The error taxonomy of the CLI layer (each click.echo error message). -/
inductive WipError where
  | NotFound (id : Nat)
  | OnHold (id : Nat)
  | SelfLoop
  | DuplicateEdge (from_id to_id : Nat)
  | CycleDetected (from_id to_id : Nat)
  | EdgeNotFound (from_id to_id : Nat)
  | DependencyIncomplete (id : Nat) (deps : List Nat)
  | MaxActiveReached (limit : Nat)
  | MissingBlocker
  | AlreadyOnHold (id : Nat)
  | NotFoundInHold (id : Nat)
  | InvalidConfigValue
deriving Repr, DecidableEq

deriving instance DecidableEq for Except

/-- Successors pushed by the DFS loop: to_id of every edge leaving node. -/
def succ_list (edges : List Edge) (node : Nat) : List Nat :=
  (edges.filter (fun e => e.from_id == node)).map Edge.to_id

/-- The to_id endpoints of an edge list, used only as a termination measure. -/
def to_ids_finset (edges : List Edge) : Finset Nat :=
  (edges.map Edge.to_id).toFinset

theorem mem_succ_list {edges : List Edge} {n x : Nat} :
    x ∈ succ_list edges n ↔ ∃ e ∈ edges, e.from_id = n ∧ e.to_id = x := by
  simp only [succ_list, List.mem_map, List.mem_filter, beq_iff_eq]
  constructor
  · rintro ⟨e, ⟨he, hf⟩, ht⟩; exact ⟨e, he, hf, ht⟩
  · rintro ⟨e, he, hf, ht⟩; exact ⟨e, ⟨he, hf⟩, ht⟩

theorem mem_to_ids_finset {edges : List Edge} {x : Nat} :
    x ∈ to_ids_finset edges ↔ ∃ e ∈ edges, e.to_id = x := by
  simp [to_ids_finset]

theorem dfs_dec_visited (edges : List Edge) (node : Nat)
    (rest visited : List Nat) :
    Prod.Lex (· < ·) (· < ·)
      ((((to_ids_finset edges ∪ rest.toFinset) \ visited.toFinset).card,
         rest.length) : Nat × Nat)
      (((to_ids_finset edges ∪ (node :: rest).toFinset) \
          visited.toFinset).card, (node :: rest).length) := by
  apply Prod.Lex.right'
  · apply Finset.card_le_card
    intro x hx
    simp only [Finset.mem_sdiff, Finset.mem_union, List.mem_toFinset,
      List.toFinset_cons, Finset.mem_insert] at *
    tauto
  · simp

theorem dfs_dec_new (edges : List Edge) (node : Nat)
    (rest visited : List Nat) (h : node ∉ visited) :
    Prod.Lex (· < ·) (· < ·)
      ((((to_ids_finset edges ∪
            (succ_list edges node ++ rest).toFinset) \
          (node :: visited).toFinset).card,
         (succ_list edges node ++ rest).length) : Nat × Nat)
      (((to_ids_finset edges ∪ (node :: rest).toFinset) \
          visited.toFinset).card, (node :: rest).length) := by
  have hs : ∀ y, y ∈ succ_list edges node → y ∈ to_ids_finset edges := by
    intro y hy
    rcases mem_succ_list.mp hy with ⟨e, he, _, ht⟩
    exact mem_to_ids_finset.mpr ⟨e, he, ht⟩
  apply Prod.Lex.left
  apply Finset.card_lt_card
  have hsub : (to_ids_finset edges ∪
      (succ_list edges node ++ rest).toFinset) \ (node :: visited).toFinset ⊆
      (to_ids_finset edges ∪ (node :: rest).toFinset) \ visited.toFinset := by
    intro x hx
    simp only [Finset.mem_sdiff, Finset.mem_union, List.mem_toFinset,
      List.toFinset_cons, Finset.mem_insert, List.toFinset_append] at *
    push_neg at hx
    obtain ⟨h1, _, hxv⟩ := hx
    refine ⟨?_, hxv⟩
    rcases h1 with h1 | h1 | h1
    · exact Or.inl h1
    · exact Or.inl (hs x h1)
    · exact Or.inr (Or.inr h1)
  rw [Finset.ssubset_iff_of_subset hsub]
  refine ⟨node, ?_, ?_⟩
  · simp [h]
  · simp

/-- The while loop of _would_create_cycle: explicit-stack DFS with a visited
set, searching for fr.  The Python set is a duplicate-free list; Python pops
the newest stack entry, here the stack head plays that role - the visit
order differs but the returned truth value is the same, as the reachability
equivalence proved below shows. -/
def dfs_reaches (edges : List Edge) (fr : Nat) (stack : List Nat)
    (visited : List Nat) : Bool :=
  match stack with
  | [] => false
  | node :: rest =>
    if node = fr then true
    else if node ∈ visited then dfs_reaches edges fr rest visited
    else dfs_reaches edges fr (succ_list edges node ++ rest) (node :: visited)
termination_by
  (((to_ids_finset edges ∪ stack.toFinset) \ visited.toFinset).card,
   stack.length)
decreasing_by
  · apply dfs_dec_visited
  · apply dfs_dec_new
    assumption

/-- _would_create_cycle: DFS from to_id looking for from_id. -/
def would_create_cycle (edges : List Edge) (from_id to_id : Nat) : Bool :=
  dfs_reaches edges from_id [to_id] []

/-- _task_exists. -/
def task_exists (s : State) (task_id : Nat) : Bool :=
  (get_task s task_id).isSome || (get_blocked s task_id).isSome

/-- The inner for loop of _get_all_descendants over the edge list: collect
to_ids of edges leaving cur that are not yet in descendants; returns the
extended descendants list together with the newly pushed nodes. -/
def collect_succ (cur : Nat) : List Edge → List Nat → List Nat × List Nat
  | [], desc => (desc, [])
  | e :: es, desc =>
    if e.from_id = cur ∧ e.to_id ∉ desc then
      let r := collect_succ cur es (desc ++ [e.to_id])
      (r.1, e.to_id :: r.2)
    else collect_succ cur es desc

theorem collect_succ_fst (cur : Nat) (es : List Edge) (desc : List Nat) :
    (collect_succ cur es desc).1 = desc ++ (collect_succ cur es desc).2 := by
  induction es generalizing desc with
  | nil => simp [collect_succ]
  | cons e es ih =>
    by_cases h : e.from_id = cur ∧ e.to_id ∉ desc
    · simp only [collect_succ, if_pos h]
      rw [ih (desc ++ [e.to_id])]
      simp
    · simp only [collect_succ, if_neg h]
      exact ih desc

theorem collect_succ_snd_mem {cur : Nat} {es : List Edge} {desc : List Nat}
    {x : Nat} (hx : x ∈ (collect_succ cur es desc).2) :
    x ∉ desc ∧ ∃ e ∈ es, e.from_id = cur ∧ e.to_id = x := by
  induction es generalizing desc with
  | nil => simp [collect_succ] at hx
  | cons e es ih =>
    by_cases h : e.from_id = cur ∧ e.to_id ∉ desc
    · simp only [collect_succ, if_pos h, List.mem_cons] at hx
      rcases hx with rfl | hx
      · exact ⟨h.2, e, by simp, h.1, rfl⟩
      · obtain ⟨hnd, e', he', hf, ht⟩ := ih hx
        refine ⟨fun hc => hnd ?_, e', by simp [he'], hf, ht⟩
        simp [hc]
    · simp only [collect_succ, if_neg h] at hx
      obtain ⟨hnd, e', he', hf, ht⟩ := ih hx
      exact ⟨hnd, e', by simp [he'], hf, ht⟩

theorem collect_succ_complete {cur : Nat} {es : List Edge} {desc : List Nat}
    {e : Edge} (he : e ∈ es) (hf : e.from_id = cur) :
    e.to_id ∈ (collect_succ cur es desc).1 := by
  induction es generalizing desc with
  | nil => simp at he
  | cons e' es ih =>
    by_cases h : e'.from_id = cur ∧ e'.to_id ∉ desc
    · simp only [collect_succ, if_pos h]
      rcases List.mem_cons.mp he with rfl | he2
      · rw [collect_succ_fst]
        simp
      · exact ih he2
    · simp only [collect_succ, if_neg h]
      rcases List.mem_cons.mp he with rfl | he2
      · push_neg at h
        have : e.to_id ∈ desc := h hf
        rw [collect_succ_fst]
        simp [this]
      · exact ih he2

theorem collect_succ_mono {cur : Nat} {es : List Edge} {desc : List Nat}
    {x : Nat} (hx : x ∈ desc) : x ∈ (collect_succ cur es desc).1 := by
  rw [collect_succ_fst]; simp [hx]

theorem collect_succ_nodup {cur : Nat} {es : List Edge} {desc : List Nat}
    (h : desc.Nodup) : (collect_succ cur es desc).1.Nodup := by
  induction es generalizing desc with
  | nil => simpa [collect_succ] using h
  | cons e es ih =>
    by_cases hc : e.from_id = cur ∧ e.to_id ∉ desc
    · simp only [collect_succ, if_pos hc]
      exact ih (by simp [List.nodup_append, h, hc.2])
    · simp only [collect_succ, if_neg hc]
      exact ih h

theorem gad_dec (edges : List Edge) (cur : Nat) (rest desc : List Nat) :
    Prod.Lex (· < ·) (· < ·)
      ((((to_ids_finset edges ∪
            ((collect_succ cur edges desc).2 ++ rest).toFinset) \
          (collect_succ cur edges desc).1.toFinset).card,
         ((collect_succ cur edges desc).2 ++ rest).length) : Nat × Nat)
      (((to_ids_finset edges ∪ (cur :: rest).toFinset) \
          desc.toFinset).card, (cur :: rest).length) := by
  have hsub : (to_ids_finset edges ∪
      ((collect_succ cur edges desc).2 ++ rest).toFinset) \
      (collect_succ cur edges desc).1.toFinset ⊆
      (to_ids_finset edges ∪ (cur :: rest).toFinset) \ desc.toFinset := by
    intro x hx
    simp only [Finset.mem_sdiff, Finset.mem_union, List.mem_toFinset,
      List.toFinset_cons, Finset.mem_insert, List.toFinset_append] at *
    obtain ⟨h1, h2⟩ := hx
    have hxd : x ∉ desc := fun hc => h2 (collect_succ_mono hc)
    refine ⟨?_, hxd⟩
    rcases h1 with h1 | h1 | h1
    · exact Or.inl h1
    · obtain ⟨_, e, he, _, ht⟩ := collect_succ_snd_mem h1
      exact Or.inl (mem_to_ids_finset.mpr ⟨e, he, ht⟩)
    · exact Or.inr (Or.inr h1)
  rcases hr : (collect_succ cur edges desc).2 with _ | ⟨t, ts⟩
  · rw [hr] at hsub
    apply Prod.Lex.right'
    · apply Finset.card_le_card
      exact hsub
    · simp [hr]
  · rw [hr] at hsub
    apply Prod.Lex.left
    apply Finset.card_lt_card
    rw [Finset.ssubset_iff_of_subset hsub]
    have ht1 : t ∈ (collect_succ cur edges desc).2 := by rw [hr]; simp
    obtain ⟨htd, e, he, _, het⟩ := collect_succ_snd_mem ht1
    refine ⟨t, ?_, ?_⟩
    · simp only [Finset.mem_sdiff, Finset.mem_union, List.mem_toFinset,
        List.toFinset_cons, Finset.mem_insert]
      exact ⟨Or.inl (mem_to_ids_finset.mpr ⟨e, he, het⟩), htd⟩
    · simp only [Finset.mem_sdiff, List.mem_toFinset, not_and, not_not]
      intro _
      rw [collect_succ_fst]
      simp [ht1]

/-- The while loop of _get_all_descendants.  As with the DFS, the stack is
consumed from the head where Python pops from the tail; the computed set of
descendants is the same (it is characterised below as exactly the
reachability set). -/
def gad_aux (edges : List Edge) (stack : List Nat) (desc : List Nat) :
    List Nat :=
  match stack with
  | [] => desc
  | cur :: rest =>
    gad_aux edges ((collect_succ cur edges desc).2 ++ rest)
      (collect_succ cur edges desc).1
termination_by
  (((to_ids_finset edges ∪ stack.toFinset) \ desc.toFinset).card,
   stack.length)
decreasing_by
  apply gad_dec

/-- _get_all_descendants: every task depending on task_id, directly or not. -/
def get_all_descendants (edges : List Edge) (task_id : Nat) : List Nat :=
  gad_aux edges [task_id] []

/-- _move_to_hold: pool entry is deleted and appended to blocked; returns the
title when a move happened, none when the id is not in the pool. -/
def move_to_hold (s : State) (task_id : Nat) (blocker : String) :
    State × Option String :=
  match get_task s task_id with
  | none => (s, none)
  | some t =>
    ({ s with
        tasks := dict_erase s.tasks task_id
        blocked := s.blocked ++ [⟨task_id, t.title, blocker, t.created_at⟩] },
     some t.title)

/-- The cascade for loop of link: move each id of all_to_move to hold, and
report the ids and titles actually moved. -/
def move_all (s : State) (from_id : Nat) :
    List Nat → State × List (Nat × String)
  | [] => (s, [])
  | tid :: rest =>
    let r := move_to_hold s tid ("Task " ++ toString from_id)
    let r2 := move_all r.1 from_id rest
    match r.2 with
    | some title => (r2.1, (tid, title) :: r2.2)
    | none => (r2.1, r2.2)

/-- The link command.  On success the returned list holds the (id, title)
pairs reported as moved to hold by the cascade.  Python iterates the cascade
over a set (iteration order implementation-defined); here the worklist is
to_id followed by the discovered descendants, which changes at most the
order of the appended held entries and of the report - every property stated
about the cascade is order-insensitive. -/
def link (s : State) (from_id to_id : Nat) :
    Except WipError (State × List (Nat × String)) :=
  if ¬ task_exists s from_id then .error (.NotFound from_id)
  else if ¬ task_exists s to_id then .error (.NotFound to_id)
  else if from_id = to_id then .error .SelfLoop
  else if has_edge s from_id to_id then .error (.DuplicateEdge from_id to_id)
  else if would_create_cycle s.edges from_id to_id then
    .error (.CycleDetected from_id to_id)
  else
    let s1 : State := { s with edges := s.edges ++ [⟨from_id, to_id⟩] }
    match get_blocked s1 from_id with
    | some _ =>
      let desc := get_all_descendants s1.edges to_id
      let all_to_move := if to_id ∈ desc then desc else to_id :: desc
      .ok (move_all s1 from_id all_to_move)
    | none => .ok (s1, [])

/-- The unlink command. -/
def unlink (s : State) (from_id to_id : Nat) : Except WipError State :=
  if ¬ has_edge s from_id to_id then .error (.EdgeNotFound from_id to_id)
  else .ok { s with
    edges := s.edges.filter
      (fun e => ¬ (e.from_id = from_id ∧ e.to_id = to_id)) }

/-- The add command.  Python truthiness: a --blocked option that is absent or
the empty string adds a regular pool task. -/
def add (now : String) (s : State) (title : String)
    (blocked : Option String) : State :=
  let task_id := s.next_id
  match blocked with
  | some b =>
    if b = "" then
      { s with next_id := s.next_id + 1
               tasks := dict_insert s.tasks task_id
                 ⟨task_id, title, false, now⟩ }
    else
      { s with next_id := s.next_id + 1
               blocked := s.blocked ++ [⟨task_id, title, b, now⟩] }
  | none =>
    { s with next_id := s.next_id + 1
             tasks := dict_insert s.tasks task_id
               ⟨task_id, title, false, now⟩ }

/-- mark task_id active.  An already active task is an informational no-op
(not an error), so it returns the state unchanged. -/
def mark_active (s : State) (task_id : Nat) : Except WipError State :=
  match get_task s task_id with
  | none =>
    if (get_blocked s task_id).isSome then .error (.OnHold task_id)
    else .error (.NotFound task_id)
  | some t =>
    if t.active then .ok s
    else
      if get_edges_to s task_id ≠ [] then
        .error (.DependencyIncomplete task_id
          ((get_edges_to s task_id).map Edge.from_id))
      else if s.config.max_active ≤ active_count s then
        .error (.MaxActiveReached s.config.max_active)
      else
        .ok { s with
          tasks :=
            update_first s.tasks task_id (fun t' => { t' with active := true }) }

/-- mark task_id inactive.  A not-active task is an informational no-op. -/
def mark_inactive (s : State) (task_id : Nat) : Except WipError State :=
  match get_task s task_id with
  | none =>
    if (get_blocked s task_id).isSome then .error (.OnHold task_id)
    else .error (.NotFound task_id)
  | some t =>
    if ¬ t.active then .ok s
    else
      .ok { s with
        tasks :=
          update_first s.tasks task_id (fun t' => { t' with active := false }) }

/-- mark task_id done. -/
def mark_done (now : String) (s : State) (task_id : Nat) :
    Except WipError State :=
  match get_task s task_id with
  | none =>
    if (get_blocked s task_id).isSome then .error (.OnHold task_id)
    else .error (.NotFound task_id)
  | some t =>
    if get_edges_to s task_id ≠ [] then
      .error (.DependencyIncomplete task_id
        ((get_edges_to s task_id).map Edge.from_id))
    else
      .ok { s with
        tasks := dict_erase s.tasks task_id
        edges := s.edges.filter
          (fun e => e.from_id ≠ task_id ∧ e.to_id ≠ task_id)
        history := s.history ++ [⟨task_id, t.title, now, t.created_at⟩] }

/-- mark task_id hold.  Python truthiness: a --by option that is absent or
empty is a missing blocker. -/
def mark_hold (s : State) (task_id : Nat) (held_by : Option String) :
    Except WipError State :=
  if held_by = none ∨ held_by = some "" then .error .MissingBlocker
  else
    match get_task s task_id with
    | none =>
      if (get_blocked s task_id).isSome then .error (.AlreadyOnHold task_id)
      else .error (.NotFound task_id)
    | some t =>
      .ok { s with
        tasks := dict_erase s.tasks task_id
        blocked := s.blocked ++
          [⟨task_id, t.title, held_by.getD "", t.created_at⟩] }

/-- mark task_id release. -/
def mark_release (s : State) (task_id : Nat) : Except WipError State :=
  match get_blocked s task_id with
  | none => .error (.NotFoundInHold task_id)
  | some b =>
    .ok { s with
      blocked := s.blocked.filter (fun b' => b'.id ≠ task_id)
      tasks := dict_insert s.tasks task_id
        ⟨task_id, b.title, false, b.created_at⟩ }

/-- mark task_id gone: pool first (with edge cleanup), then blocked, then
history (both without edge cleanup, as in the source). -/
def mark_gone (s : State) (task_id : Nat) : Except WipError State :=
  if (get_task s task_id).isSome then
    .ok { s with
      tasks := dict_erase s.tasks task_id
      edges := s.edges.filter
        (fun e => e.from_id ≠ task_id ∧ e.to_id ≠ task_id) }
  else if s.blocked.any (fun b => b.id == task_id) then
    .ok { s with blocked := remove_first (fun b => b.id == task_id) s.blocked }
  else if s.history.any (fun h => h.id == task_id) then
    .ok { s with history := remove_first (fun h => h.id == task_id) s.history }
  else .error (.NotFound task_id)

/-- config max_active value (an int below 1 is rejected). -/
def config_set_max_active (s : State) (value : Nat) : Except WipError State :=
  if value < 1 then .error .InvalidConfigValue
  else .ok { s with config := { s.config with max_active := value } }

/-- config stale_days value (an int below 1 is rejected). -/
def config_set_stale_days (s : State) (value : Nat) : Except WipError State :=
  if value < 1 then .error .InvalidConfigValue
  else .ok { s with config := { s.config with stale_days := value } }

/-- The State() default: empty collections, next_id 1, default config. -/
def init_state : State :=
  { tasks := []
    edges := []
    blocked := []
    history := []
    next_id := 1
    config :=
      { max_active := 2
        stale_days := 14
        share := { enabled := false, gist_id := none, gist_url := none } } }

/-- States reachable from the initial state by successful engine operations
(the mutation commands of the CLI other than the import boundary). -/
inductive Reachable : State → Prop where
  | init : Reachable init_state
  | step_add : ∀ {s} now title blocked, Reachable s →
      Reachable (add now s title blocked)
  | step_link : ∀ {s s' moved} {f t : Nat}, Reachable s →
      link s f t = .ok (s', moved) → Reachable s'
  | step_unlink : ∀ {s s'} {f t : Nat}, Reachable s →
      unlink s f t = .ok s' → Reachable s'
  | step_active : ∀ {s s'} {i : Nat}, Reachable s →
      mark_active s i = .ok s' → Reachable s'
  | step_inactive : ∀ {s s'} {i : Nat}, Reachable s →
      mark_inactive s i = .ok s' → Reachable s'
  | step_done : ∀ {s s'} {i : Nat} now, Reachable s →
      mark_done now s i = .ok s' → Reachable s'
  | step_hold : ∀ {s s'} {i : Nat} held_by, Reachable s →
      mark_hold s i held_by = .ok s' → Reachable s'
  | step_release : ∀ {s s'} {i : Nat}, Reachable s →
      mark_release s i = .ok s' → Reachable s'
  | step_gone : ∀ {s s'} {i : Nat}, Reachable s →
      mark_gone s i = .ok s' → Reachable s'
  | step_config_max : ∀ {s s'} {v : Nat}, Reachable s →
      config_set_max_active s v = .ok s' → Reachable s'
  | step_config_stale : ∀ {s s'} {v : Nat}, Reachable s →
      config_set_stale_days s v = .ok s' → Reachable s'

/-- One dependency step: some edge goes from a to b. -/
def estep (edges : List Edge) (a b : Nat) : Prop :=
  ∃ e ∈ edges, e.from_id = a ∧ e.to_id = b

instance (edges : List Edge) (a b : Nat) : Decidable (estep edges a b) :=
  decidable_of_iff (∃ e ∈ edges, e.from_id = a ∧ e.to_id = b) Iff.rfl

/-- The edge set, read as a digraph, has no (nonempty) cycle. -/
def Acyclic (edges : List Edge) : Prop :=
  ∀ a, ¬ Relation.TransGen (estep edges) a a

theorem dfs_reaches_sound (edges : List Edge) (fr dst : Nat) :
    ∀ (stack visited : List Nat),
    (∀ n ∈ stack, Relation.ReflTransGen (estep edges) dst n) →
    dfs_reaches edges fr stack visited = true →
    Relation.ReflTransGen (estep edges) dst fr := by
  intro stack visited
  induction stack, visited using dfs_reaches.induct edges fr with
  | case1 visited =>
    intro _ h
    simp [dfs_reaches] at h
  | case2 visited rest =>
    intro hstack _
    exact hstack fr (by simp)
  | case3 visited node rest hne hvis ih =>
    intro hstack h
    simp only [dfs_reaches, if_neg hne, if_pos hvis] at h
    exact ih (fun n hn => hstack n (by simp [hn])) h
  | case4 visited node rest hne hvis ih =>
    intro hstack h
    simp only [dfs_reaches, if_neg hne, if_neg hvis] at h
    refine ih ?_ h
    intro n hn
    rcases List.mem_append.mp hn with hn | hn
    · rcases mem_succ_list.mp hn with ⟨e, he, hf, ht⟩
      exact Relation.ReflTransGen.tail (hstack node (by simp)) ⟨e, he, hf, ht⟩
    · exact hstack n (by simp [hn])

theorem reach_escape {edges : List Edge} {fr : Nat}
    {visited stack : List Nat}
    (hclo : ∀ v ∈ visited, ∀ w, estep edges v w → w ∈ visited ∨ w ∈ stack)
    (hfr : fr ∉ visited) {n : Nat} (hn : n ∈ visited)
    (hr : Relation.ReflTransGen (estep edges) n fr) :
    ∃ m ∈ stack, Relation.ReflTransGen (estep edges) m fr := by
  rcases Relation.reflTransGen_iff_eq_or_transGen.mp hr with rfl | htg
  · exact absurd hn hfr
  · clear hr
    induction htg using Relation.TransGen.head_induction_on with
    | base h =>
      rcases hclo _ hn _ h with hv | hs
      · exact absurd hv hfr
      · exact ⟨fr, hs, Relation.ReflTransGen.refl⟩
    | ih h' h ihh =>
      rcases hclo _ hn _ h' with hv | hs
      · exact ihh hv
      · exact ⟨_, hs, h.to_reflTransGen⟩

theorem dfs_reaches_complete (edges : List Edge) (fr : Nat) :
    ∀ (stack visited : List Nat),
    (∀ v ∈ visited, ∀ w, estep edges v w → w ∈ visited ∨ w ∈ stack) →
    fr ∉ visited →
    (∃ n ∈ stack, Relation.ReflTransGen (estep edges) n fr) →
    dfs_reaches edges fr stack visited = true := by
  intro stack visited
  induction stack, visited using dfs_reaches.induct edges fr with
  | case1 visited =>
    rintro _ _ ⟨n, hn, _⟩
    simp at hn
  | case2 visited rest =>
    intro _ _ _
    simp [dfs_reaches]
  | case3 visited node rest hne hvis ih =>
    intro hclo hfr hwit
    have hclo' : ∀ v ∈ visited, ∀ w, estep edges v w →
        w ∈ visited ∨ w ∈ rest := by
      intro v hv w hw
      rcases hclo v hv w hw with h | h
      · exact Or.inl h
      · rcases List.mem_cons.mp h with rfl | h
        · exact Or.inl hvis
        · exact Or.inr h
    simp only [dfs_reaches, if_neg hne, if_pos hvis]
    refine ih hclo' hfr ?_
    obtain ⟨n, hn, hr⟩ := hwit
    rcases List.mem_cons.mp hn with rfl | hn
    · exact reach_escape hclo' hfr hvis hr
    · exact ⟨n, hn, hr⟩
  | case4 visited node rest hne hvis ih =>
    intro hclo hfr hwit
    simp only [dfs_reaches, if_neg hne, if_neg hvis]
    refine ih ?_ ?_ ?_
    · intro v hv w hw
      rcases List.mem_cons.mp hv with rfl | hv
      · refine Or.inr (List.mem_append.mpr (Or.inl ?_))
        rcases hw with ⟨e, he, hf, ht⟩
        exact mem_succ_list.mpr ⟨e, he, hf, ht⟩
      · rcases hclo v hv w hw with h | h
        · exact Or.inl (by simp [h])
        · rcases List.mem_cons.mp h with rfl | h
          · exact Or.inl (by simp)
          · exact Or.inr (List.mem_append.mpr (Or.inr h))
    · intro hc
      rcases List.mem_cons.mp hc with rfl | hc
      · exact hne rfl
      · exact hfr hc
    · obtain ⟨n, hn, hr⟩ := hwit
      rcases List.mem_cons.mp hn with rfl | hn
      · rcases Relation.reflTransGen_iff_eq_or_transGen.mp hr with rfl | htg
        · exact absurd rfl hne
        · obtain ⟨w, hw, hwr⟩ := Relation.TransGen.head'_iff.mp htg
          refine ⟨w, List.mem_append.mpr (Or.inl ?_), hwr⟩
          rcases hw with ⟨e, he, hf, ht⟩
          exact mem_succ_list.mpr ⟨e, he, hf, ht⟩
      · exact ⟨n, List.mem_append.mpr (Or.inr hn), hr⟩

/-- The DFS of _would_create_cycle decides reachability from to_id back to
from_id over the existing edges. -/
theorem would_create_cycle_iff {edges : List Edge} {fr dst : Nat} :
    would_create_cycle edges fr dst = true ↔
    Relation.ReflTransGen (estep edges) dst fr := by
  constructor
  · intro h
    refine dfs_reaches_sound edges fr dst [dst] [] ?_ h
    intro n hn
    rcases List.mem_singleton.mp hn with rfl
    exact Relation.ReflTransGen.refl
  · intro h
    refine dfs_reaches_complete edges fr [dst] [] ?_ ?_ ?_
    · intro v hv; simp at hv
    · simp
    · exact ⟨dst, by simp, h⟩

theorem gad_aux_sound (edges : List Edge) (root : Nat) :
    ∀ (stack desc : List Nat),
    (∀ d ∈ desc, Relation.TransGen (estep edges) root d) →
    (∀ n ∈ stack, Relation.ReflTransGen (estep edges) root n) →
    ∀ x ∈ gad_aux edges stack desc, Relation.TransGen (estep edges) root x := by
  intro stack desc
  induction stack, desc using gad_aux.induct edges with
  | case1 desc =>
    intro hdesc _ x hx
    simp only [gad_aux] at hx
    exact hdesc x hx
  | case2 desc cur rest ih =>
    intro hdesc hstack x hx
    simp only [gad_aux] at hx
    have hcur : Relation.ReflTransGen (estep edges) root cur :=
      hstack cur (by simp)
    have hdesc' : ∀ d ∈ (collect_succ cur edges desc).1,
        Relation.TransGen (estep edges) root d := by
      intro d hd
      rw [collect_succ_fst] at hd
      rcases List.mem_append.mp hd with hd | hd
      · exact hdesc d hd
      · obtain ⟨_, e, he, hf, ht⟩ := collect_succ_snd_mem hd
        exact Relation.TransGen.tail' hcur ⟨e, he, hf, ht⟩
    refine ih hdesc' ?_ x hx
    intro n hn
    rcases List.mem_append.mp hn with hn | hn
    · obtain ⟨_, e, he, hf, ht⟩ := collect_succ_snd_mem hn
      exact (Relation.TransGen.tail' hcur ⟨e, he, hf, ht⟩).to_reflTransGen
    · exact hstack n (by simp [hn])

theorem gad_aux_complete (edges : List Edge) (root : Nat) :
    ∀ (stack desc : List Nat),
    (∀ n ∈ desc, n ∈ stack ∨ ∀ y, estep edges n y → y ∈ desc) →
    (root ∈ stack ∨ ∀ y, estep edges root y → y ∈ desc) →
    (∀ y, estep edges root y → y ∈ gad_aux edges stack desc) ∧
    (∀ n ∈ gad_aux edges stack desc, ∀ y, estep edges n y →
       y ∈ gad_aux edges stack desc) ∧
    (∀ d ∈ desc, d ∈ gad_aux edges stack desc) := by
  intro stack desc
  induction stack, desc using gad_aux.induct edges with
  | case1 desc =>
    intro hclo hroot
    simp only [gad_aux]
    refine ⟨?_, ?_, fun d hd => hd⟩
    · rcases hroot with h | h
      · simp at h
      · exact h
    · intro n hn y hy
      rcases hclo n hn with h | h
      · simp at h
      · exact h y hy
  | case2 desc cur rest ih =>
    intro hclo hroot
    simp only [gad_aux]
    have hcurclo : ∀ y, estep edges cur y → y ∈ (collect_succ cur edges desc).1 := by
      intro y hy
      rcases hy with ⟨e, he, hf, ht⟩
      exact ht ▸ collect_succ_complete he hf
    have hclo' : ∀ n ∈ (collect_succ cur edges desc).1,
        n ∈ (collect_succ cur edges desc).2 ++ rest ∨
        ∀ y, estep edges n y → y ∈ (collect_succ cur edges desc).1 := by
      intro n hn
      rw [collect_succ_fst] at hn
      rcases List.mem_append.mp hn with hn | hn
      · rcases hclo n hn with h | h
        · rcases List.mem_cons.mp h with rfl | h
          · exact Or.inr hcurclo
          · exact Or.inl (List.mem_append.mpr (Or.inr h))
        · exact Or.inr (fun y hy => collect_succ_mono (h y hy))
      · exact Or.inl (List.mem_append.mpr (Or.inl hn))
    have hroot' : root ∈ (collect_succ cur edges desc).2 ++ rest ∨
        ∀ y, estep edges root y → y ∈ (collect_succ cur edges desc).1 := by
      rcases hroot with h | h
      · rcases List.mem_cons.mp h with rfl | h
        · exact Or.inr hcurclo
        · exact Or.inl (List.mem_append.mpr (Or.inr h))
      · exact Or.inr (fun y hy => collect_succ_mono (h y hy))
    obtain ⟨h1, h2, h3⟩ := ih hclo' hroot'
    exact ⟨h1, h2, fun d hd => h3 d (collect_succ_mono hd)⟩

/-- _get_all_descendants computes exactly the set of ids reachable from
task_id through one or more edges. -/
theorem mem_get_all_descendants {edges : List Edge} {root x : Nat} :
    x ∈ get_all_descendants edges root ↔
    Relation.TransGen (estep edges) root x := by
  constructor
  · intro h
    refine gad_aux_sound edges root [root] [] (by simp) ?_ x h
    intro n hn
    rcases List.mem_singleton.mp hn with rfl
    exact Relation.ReflTransGen.refl
  · intro h
    obtain ⟨h1, h2, _⟩ :=
      gad_aux_complete edges root [root] [] (by simp) (Or.inl (by simp))
    unfold get_all_descendants
    induction h with
    | single hstep => exact h1 _ hstep
    | tail _ hstep ihh => exact h2 _ ihh _ hstep

theorem gad_aux_nodup (edges : List Edge) :
    ∀ (stack desc : List Nat), desc.Nodup → (gad_aux edges stack desc).Nodup := by
  intro stack desc
  induction stack, desc using gad_aux.induct edges with
  | case1 desc => intro h; simpa [gad_aux] using h
  | case2 desc cur rest ih =>
    intro h
    simp only [gad_aux]
    exact ih (collect_succ_nodup h)

theorem get_all_descendants_nodup {edges : List Edge} {root : Nat} :
    (get_all_descendants edges root).Nodup :=
  gad_aux_nodup edges [root] [] (by simp)

theorem estep_append_single {edges : List Edge} {f t a b : Nat} :
    estep (edges ++ [⟨f, t⟩]) a b ↔ estep edges a b ∨ (a = f ∧ b = t) := by
  simp only [estep, List.mem_append, List.mem_singleton]
  constructor
  · rintro ⟨e, he | rfl, hf, ht⟩
    · exact Or.inl ⟨e, he, hf, ht⟩
    · exact Or.inr ⟨hf.symm, ht.symm⟩
  · rintro (⟨e, he, hf, ht⟩ | ⟨rfl, rfl⟩)
    · exact ⟨e, Or.inl he, hf, ht⟩
    · exact ⟨⟨a, b⟩, Or.inr rfl, rfl, rfl⟩

/-- If to cannot already reach from, then appending the edge from -> to
creates no new node reachable from to. -/
theorem rtg_append_no_reach {edges : List Edge} {f t : Nat}
    (h : ¬ Relation.ReflTransGen (estep edges) t f) :
    ∀ {x}, Relation.ReflTransGen (estep (edges ++ [⟨f, t⟩])) t x →
    Relation.ReflTransGen (estep edges) t x := by
  intro x hx
  induction hx with
  | refl => exact Relation.ReflTransGen.refl
  | tail _ hstep ihh =>
    rcases estep_append_single.mp hstep with hstep | ⟨rfl, rfl⟩
    · exact Relation.ReflTransGen.tail ihh hstep
    · exact absurd ihh h

theorem tg_append_no_reach {edges : List Edge} {f t : Nat}
    (h : ¬ Relation.ReflTransGen (estep edges) t f) :
    ∀ {x}, Relation.TransGen (estep (edges ++ [⟨f, t⟩])) t x →
    Relation.TransGen (estep edges) t x := by
  intro x hx
  induction hx with
  | single hstep =>
    rcases estep_append_single.mp hstep with hstep | ⟨rfl, rfl⟩
    · exact Relation.TransGen.single hstep
    · exact absurd Relation.ReflTransGen.refl h
  | tail hprev hstep ihh =>
    rcases estep_append_single.mp hstep with hstep | ⟨rfl, rfl⟩
    · exact Relation.TransGen.tail ihh hstep
    · exact absurd ihh.to_reflTransGen h

/-- Any path over the extended edge set either stays in the old edges or
passes through the new edge from -> to. -/
theorem tg_append_cases {edges : List Edge} {f t a b : Nat}
    (h : Relation.TransGen (estep (edges ++ [⟨f, t⟩])) a b) :
    Relation.TransGen (estep edges) a b ∨
    (Relation.ReflTransGen (estep (edges ++ [⟨f, t⟩])) a f ∧
     Relation.ReflTransGen (estep (edges ++ [⟨f, t⟩])) t b) := by
  induction h with
  | single hstep =>
    rcases estep_append_single.mp hstep with hstep | ⟨rfl, rfl⟩
    · exact Or.inl (Relation.TransGen.single hstep)
    · exact Or.inr ⟨Relation.ReflTransGen.refl, Relation.ReflTransGen.refl⟩
  | tail hprev hstep ihh =>
    rcases estep_append_single.mp hstep with hstep | ⟨rfl, rfl⟩
    · rcases ihh with ihh | ⟨h1, h2⟩
      · exact Or.inl (Relation.TransGen.tail ihh hstep)
      · refine Or.inr ⟨h1, Relation.ReflTransGen.tail h2 ?_⟩
        exact estep_append_single.mpr (Or.inl hstep)
    · rcases ihh with ihh | ⟨h1, _⟩
      · refine Or.inr ⟨?_, Relation.ReflTransGen.refl⟩
        exact (ihh.mono (fun x y hxy => estep_append_single.mpr (Or.inl hxy))).to_reflTransGen
      · exact Or.inr ⟨h1, Relation.ReflTransGen.refl⟩

/-- Appending an edge whose target cannot reach its source preserves
acyclicity. -/
theorem acyclic_append {edges : List Edge} {f t : Nat}
    (hacyc : Acyclic edges)
    (hnr : ¬ Relation.ReflTransGen (estep edges) t f) :
    Acyclic (edges ++ [⟨f, t⟩]) := by
  intro a ha
  rcases tg_append_cases ha with hcyc | ⟨h1, h2⟩
  · exact hacyc a hcyc
  · have htf : Relation.ReflTransGen (estep (edges ++ [⟨f, t⟩])) t f :=
      h2.trans h1
    exact hnr (rtg_append_no_reach hnr htf)

theorem acyclic_of_subset {edges edges' : List Edge}
    (hsub : ∀ e ∈ edges', e ∈ edges) (hacyc : Acyclic edges) :
    Acyclic edges' := by
  intro a ha
  refine hacyc a (ha.mono ?_)
  rintro x y ⟨e, he, hf, ht⟩
  exact ⟨e, hsub e he, hf, ht⟩

theorem estep_nil {a b : Nat} : ¬ estep ([] : List Edge) a b := by
  rintro ⟨e, he, _⟩
  simp at he

theorem acyclic_nil : Acyclic [] := by
  intro a ha
  obtain ⟨c, hc, _⟩ := Relation.TransGen.head'_iff.mp ha
  exact estep_nil hc

theorem has_edge_iff {s : State} {f t : Nat} :
    has_edge s f t = true ↔ estep s.edges f t := by
  simp only [has_edge, List.any_eq_true, Bool.and_eq_true, beq_iff_eq, estep]

theorem add_edges (now : String) (s : State) (title : String)
    (blocked : Option String) : (add now s title blocked).edges = s.edges := by
  rcases blocked with _ | b
  · rfl
  · by_cases hb : b = "" <;> simp [add, hb]

theorem move_to_hold_parts (s : State) (tid : Nat) (bl : String) :
    (move_to_hold s tid bl).1.edges = s.edges ∧
    (move_to_hold s tid bl).1.history = s.history ∧
    (move_to_hold s tid bl).1.next_id = s.next_id ∧
    (move_to_hold s tid bl).1.config = s.config := by
  unfold move_to_hold
  rcases get_task s tid with _ | t <;> simp

theorem move_all_parts (f : Nat) :
    ∀ (l : List Nat) (s : State),
    (move_all s f l).1.edges = s.edges ∧
    (move_all s f l).1.history = s.history ∧
    (move_all s f l).1.next_id = s.next_id ∧
    (move_all s f l).1.config = s.config := by
  intro l
  induction l with
  | nil => intro s; simp [move_all]
  | cons tid rest ih =>
    intro s
    obtain ⟨h1, h2, h3, h4⟩ := move_to_hold_parts s tid ("Task " ++ toString f)
    obtain ⟨g1, g2, g3, g4⟩ := ih (move_to_hold s tid ("Task " ++ toString f)).1
    unfold move_all
    rcases hm : (move_to_hold s tid ("Task " ++ toString f)).2 with _ | title
    · simp only [hm]
      exact ⟨g1.trans h1, g2.trans h2, g3.trans h3, g4.trans h4⟩
    · simp only [hm]
      exact ⟨g1.trans h1, g2.trans h2, g3.trans h3, g4.trans h4⟩

/-- Everything a successful link tells us about the inputs and the result. -/
theorem link_ok_elim {s s' : State} {f t : Nat} {moved : List (Nat × String)}
    (h : link s f t = .ok (s', moved)) :
    task_exists s f = true ∧ task_exists s t = true ∧ f ≠ t ∧
    has_edge s f t = false ∧ would_create_cycle s.edges f t = false ∧
    s'.edges = s.edges ++ [⟨f, t⟩] := by
  simp only [link] at h
  split_ifs at h with h1 h2 h3 h4 h5 <;>
    push_neg at h1 h2 <;>
    refine ⟨h1, h2, h3, by simpa using h4, by simpa using h5, ?_⟩ <;>
    split at h <;>
    have hfst : _ = s' := congrArg Prod.fst (Except.ok.inj h) <;>
    first
      | rw [← hfst, (move_all_parts f _ _).1]
      | rw [← hfst]

theorem unlink_ok_elim {s s' : State} {f t : Nat}
    (h : unlink s f t = .ok s') :
    s'.edges = s.edges.filter (fun e => ¬ (e.from_id = f ∧ e.to_id = t)) := by
  unfold unlink at h
  split_ifs at h
  cases h
  rfl

theorem mark_active_ok_edges {s s' : State} {i : Nat}
    (h : mark_active s i = .ok s') : s'.edges = s.edges := by
  unfold mark_active at h
  split at h
  · split at h <;> cases h
  · split at h
    · cases h; rfl
    · split at h
      · cases h
      · split at h
        · cases h
        · cases h; rfl

theorem mark_inactive_ok_edges {s s' : State} {i : Nat}
    (h : mark_inactive s i = .ok s') : s'.edges = s.edges := by
  unfold mark_inactive at h
  split at h
  · split at h <;> cases h
  · split at h
    · cases h; rfl
    · cases h; rfl

theorem mark_done_ok_edges {now : String} {s s' : State} {i : Nat}
    (h : mark_done now s i = .ok s') :
    s'.edges = s.edges.filter (fun e => e.from_id ≠ i ∧ e.to_id ≠ i) := by
  unfold mark_done at h
  split at h
  · split at h <;> cases h
  · split at h
    · cases h
    · cases h; rfl

theorem mark_hold_ok_edges {s s' : State} {i : Nat} {hb : Option String}
    (h : mark_hold s i hb = .ok s') : s'.edges = s.edges := by
  unfold mark_hold at h
  split at h
  · cases h
  · split at h
    · split at h <;> cases h
    · cases h; rfl

theorem mark_release_ok_edges {s s' : State} {i : Nat}
    (h : mark_release s i = .ok s') : s'.edges = s.edges := by
  unfold mark_release at h
  split at h
  · cases h
  · cases h
    rfl

theorem mark_gone_ok_edges {s s' : State} {i : Nat}
    (h : mark_gone s i = .ok s') :
    s'.edges = s.edges ∨
    s'.edges = s.edges.filter (fun e => e.from_id ≠ i ∧ e.to_id ≠ i) := by
  unfold mark_gone at h
  split at h
  · cases h; right; rfl
  · split at h
    · cases h; left; rfl
    · split at h
      · cases h; left; rfl
      · cases h

theorem config_max_ok_edges {s s' : State} {v : Nat}
    (h : config_set_max_active s v = .ok s') : s'.edges = s.edges := by
  unfold config_set_max_active at h
  split_ifs at h
  cases h
  rfl

theorem config_stale_ok_edges {s s' : State} {v : Nat}
    (h : config_set_stale_days s v = .ok s') : s'.edges = s.edges := by
  unfold config_set_stale_days at h
  split_ifs at h
  cases h
  rfl

/-- The acyclicity invariant: every state reachable by successful engine
operations has an acyclic edge set. -/
theorem reachable_acyclic {s : State} (h : Reachable s) : Acyclic s.edges := by
  induction h with
  | init => exact acyclic_nil
  | step_add now title blocked _ ih => rw [add_edges]; exact ih
  | step_link _ hop ih =>
    obtain ⟨_, _, _, _, hwcc, hedges⟩ := link_ok_elim hop
    rw [hedges]
    refine acyclic_append ih ?_
    intro hr
    rw [← would_create_cycle_iff] at hr
    rw [hr] at hwcc
    exact Bool.noConfusion hwcc
  | step_unlink _ hop ih =>
    rw [unlink_ok_elim hop]
    exact acyclic_of_subset (fun e he => (List.mem_filter.mp he).1) ih
  | step_active _ hop ih => rw [mark_active_ok_edges hop]; exact ih
  | step_inactive _ hop ih => rw [mark_inactive_ok_edges hop]; exact ih
  | step_done now _ hop ih =>
    rw [mark_done_ok_edges hop]
    exact acyclic_of_subset (fun e he => (List.mem_filter.mp he).1) ih
  | step_hold held_by _ hop ih => rw [mark_hold_ok_edges hop]; exact ih
  | step_release _ hop ih => rw [mark_release_ok_edges hop]; exact ih
  | step_gone _ hop ih =>
    rcases mark_gone_ok_edges hop with he | he <;> rw [he]
    · exact ih
    · exact acyclic_of_subset (fun e hee => (List.mem_filter.mp hee).1) ih
  | step_config_max _ hop ih => rw [config_max_ok_edges hop]; exact ih
  | step_config_stale _ hop ih => rw [config_stale_ok_edges hop]; exact ih

theorem dict_find_cons {α : Type} (k2 : Nat) (v : α)
    (rest : List (Nat × α)) (j : Nat) :
    dict_find ((k2, v) :: rest) j =
      if k2 = j then some v else dict_find rest j := by
  by_cases h : k2 = j
  · rw [if_pos h]
    unfold dict_find
    rw [List.find?_cons_of_pos _ (by simpa using h)]
    rfl
  · rw [if_neg h]
    unfold dict_find
    rw [List.find?_cons_of_neg _ (by simpa using h)]

theorem update_first_find_self {α : Type} (m : List (Nat × α)) (k : Nat)
    (f : α → α) :
    dict_find (update_first m k f) k = (dict_find m k).map f := by
  induction m with
  | nil => rfl
  | cons p rest ih =>
    rcases p with ⟨k2, v⟩
    by_cases h : k2 = k
    · subst h
      simp [update_first, dict_find_cons]
    · simp [update_first, h, dict_find_cons, ih]

theorem update_first_find_other {α : Type} (m : List (Nat × α)) (k j : Nat)
    (f : α → α) (h : j ≠ k) :
    dict_find (update_first m k f) j = dict_find m j := by
  induction m with
  | nil => rfl
  | cons p rest ih =>
    rcases p with ⟨k2, v⟩
    by_cases hk : k2 = k
    · subst hk
      have hne : ¬ k2 = j := fun hh => h hh.symm
      simp [update_first, dict_find_cons, hne]
    · by_cases hj : k2 = j
      · subst hj
        simp [update_first, hk, dict_find_cons]
      · simp [update_first, hk, hj, dict_find_cons, ih]

theorem dict_erase_find_other {α : Type} (m : List (Nat × α)) (k j : Nat)
    (h : j ≠ k) :
    dict_find (dict_erase m k) j = dict_find m j := by
  induction m with
  | nil => rfl
  | cons p rest ih =>
    rcases p with ⟨k2, v⟩
    by_cases hk : k2 = k
    · subst hk
      have hne : ¬ k2 = j := fun hh => h hh.symm
      simp [dict_erase, dict_find_cons, hne]
    · by_cases hj : k2 = j
      · subst hj
        simp [dict_erase, hk, dict_find_cons]
      · simp [dict_erase, hk, hj, dict_find_cons, ih]

theorem dict_erase_find_self {α : Type} (m : List (Nat × α)) (k : Nat)
    (hnd : (m.map Prod.fst).Nodup) :
    dict_find (dict_erase m k) k = none := by
  induction m with
  | nil => rfl
  | cons p rest ih =>
    rcases p with ⟨k2, v⟩
    simp only [List.map_cons, List.nodup_cons, List.mem_map] at hnd
    by_cases hk : k2 = k
    · subst hk
      have hrest : rest.find? (fun p => p.1 == k2) = none := by
        rw [List.find?_eq_none]
        intro x hx
        simp only [beq_iff_eq]
        exact fun hxx => hnd.1 ⟨x, hx, hxx⟩
      simp [dict_erase, dict_find, hrest]
    · simp [dict_erase, hk, dict_find_cons, ih hnd.2]

theorem filter_active_update_false (m : List (Nat × Task)) (k : Nat)
    (t : Task) (hfind : dict_find m k = some t) (ha : t.active = true) :
    ((update_first m k (fun t2 =>
        { t2 with active := false })).filter (fun p => p.2.active)).length + 1 =
    (m.filter (fun p => p.2.active)).length := by
  induction m with
  | nil => simp [dict_find] at hfind
  | cons p rest ih =>
    rcases p with ⟨k2, v⟩
    by_cases hk : k2 = k
    · subst hk
      have hv : v = t := by simpa [dict_find_cons] using hfind
      subst hv
      simp [update_first, List.filter, ha]
    · simp only [update_first, if_neg hk]
      have hfind2 : dict_find rest k = some t := by
        simpa [dict_find_cons, hk] using hfind
      by_cases hv : v.active
      · simp only [List.filter_cons, hv, if_pos]
        simpa using ih hfind2
      · simp only [List.filter_cons]
        simp only [hv]
        simpa using ih hfind2

theorem filter_active_erase (m : List (Nat × Task)) (k : Nat)
    (t : Task) (hfind : dict_find m k = some t) (ha : t.active = true) :
    ((dict_erase m k).filter (fun p => p.2.active)).length + 1 =
    (m.filter (fun p => p.2.active)).length := by
  induction m with
  | nil => simp [dict_find] at hfind
  | cons p rest ih =>
    rcases p with ⟨k2, v⟩
    by_cases hk : k2 = k
    · subst hk
      have hv : v = t := by simpa [dict_find_cons] using hfind
      subst hv
      simp [dict_erase, List.filter, ha]
    · simp only [dict_erase, if_neg hk]
      have hfind2 : dict_find rest k = some t := by
        simpa [dict_find_cons, hk] using hfind
      by_cases hv : v.active
      · simp only [List.filter_cons, hv, if_pos]
        simpa using ih hfind2
      · simp only [List.filter_cons]
        simp only [hv]
        simpa using ih hfind2

theorem active_count_pos {s : State} {a : Nat} {ta : Task}
    (ha : get_task s a = some ta) (hact : ta.active = true) :
    0 < active_count s := by
  have := filter_active_erase s.tasks a ta ha hact
  unfold active_count
  omega

/-- What mark active returns on an inactive pool task with no incoming edges
and room under the ceiling. -/
theorem mark_active_ok_of {s : State} {i : Nat} {t : Task}
    (ht : get_task s i = some t) (hina : t.active = false)
    (hdeps : get_edges_to s i = [])
    (hroom : active_count s < s.config.max_active) :
    mark_active s i = .ok { s with
      tasks := update_first s.tasks i (fun t2 => { t2 with active := true }) } := by
  have hroom2 : ¬ s.config.max_active ≤ active_count s := not_le.mpr hroom
  unfold mark_active
  rw [ht]
  simp [hina, hdeps, hroom2]

theorem mark_active_err_deps {s : State} {i : Nat} {t : Task}
    (ht : get_task s i = some t) (hina : t.active = false)
    (hdeps : get_edges_to s i ≠ []) :
    mark_active s i =
      .error (.DependencyIncomplete i ((get_edges_to s i).map Edge.from_id)) := by
  unfold mark_active
  rw [ht]
  simp [hina, hdeps]

theorem mark_active_err_max {s : State} {i : Nat} {t : Task}
    (ht : get_task s i = some t) (hina : t.active = false)
    (hdeps : get_edges_to s i = [])
    (hfull : s.config.max_active ≤ active_count s) :
    mark_active s i = .error (.MaxActiveReached s.config.max_active) := by
  unfold mark_active
  rw [ht]
  simp [hina, hdeps, hfull]

theorem mark_inactive_ok_of {s : State} {a : Nat} {ta : Task}
    (ha : get_task s a = some ta) (hact : ta.active = true) :
    mark_inactive s a = .ok { s with
      tasks := update_first s.tasks a (fun t2 => { t2 with active := false }) } := by
  unfold mark_inactive
  rw [ha]
  simp [hact]

theorem mark_done_ok_of {now : String} {s : State} {i : Nat} {t : Task}
    (ht : get_task s i = some t) (hdeps : get_edges_to s i = []) :
    mark_done now s i = .ok { s with
      tasks := dict_erase s.tasks i
      edges := s.edges.filter (fun e => e.from_id ≠ i ∧ e.to_id ≠ i)
      history := s.history ++ [⟨i, t.title, now, t.created_at⟩] } := by
  unfold mark_done
  rw [ht]
  simp [hdeps]

theorem mark_done_err_deps {now : String} {s : State} {i : Nat} {t : Task}
    (ht : get_task s i = some t) (hdeps : get_edges_to s i ≠ []) :
    mark_done now s i =
      .error (.DependencyIncomplete i ((get_edges_to s i).map Edge.from_id)) := by
  unfold mark_done
  rw [ht]
  simp [hdeps]

/-- The default Config() of the model. -/
def default_config : Config :=
  { max_active := 2, stale_days := 14
    share := { enabled := false, gist_id := none, gist_url := none } }

/-- A reachable two-task state with the edge 1 -> 2 (add, add, link). -/
def c1_linked_state : State :=
  { tasks := [(1, ⟨1, "A", false, "d1"⟩), (2, ⟨2, "B", false, "d2"⟩)]
    edges := [⟨1, 2⟩]
    blocked := []
    history := []
    next_id := 3
    config := default_config }

theorem c1_linked_state_reachable : Reachable c1_linked_state := by
  have r2 : Reachable (add "d2" (add "d1" init_state "A" none) "B" none) :=
    Reachable.step_add "d2" "B" none
      (Reachable.step_add "d1" "A" none Reachable.init)
  have hl : link (add "d2" (add "d1" init_state "A" none) "B" none) 1 2 =
      .ok (c1_linked_state, []) := by
    simp [link, add, init_state, default_config, c1_linked_state, task_exists,
      get_task, get_blocked, dict_find, dict_insert, has_edge,
      would_create_cycle, dfs_reaches, succ_list]
  exact Reachable.step_link r2 hl

/-- Three pool tasks, no edges yet (after three adds). -/
def c1_pool3 : State :=
  { tasks := [(1, ⟨1, "A", false, "d1"⟩), (2, ⟨2, "B", false, "d2"⟩),
              (3, ⟨3, "C", false, "d3"⟩)]
    edges := []
    blocked := []
    history := []
    next_id := 4
    config := default_config }

/-- After link 2 3. -/
def c1_after_link : State := { c1_pool3 with edges := [⟨2, 3⟩] }

/-- After mark 2 hold (edges are kept). -/
def c1_after_hold : State :=
  { c1_after_link with
      tasks := [(1, ⟨1, "A", false, "d1"⟩), (3, ⟨3, "C", false, "d3"⟩)]
      blocked := [⟨2, "B", "X", "d2"⟩] }

/-- After mark 2 gone: the held entry is deleted but the edge 2 -> 3
survives, dangling. -/
def c1_dangling_state : State := { c1_after_hold with blocked := [] }

theorem c1_pool3_reachable : Reachable c1_pool3 := by
  have r3 : Reachable
      (add "d3" (add "d2" (add "d1" init_state "A" none) "B" none) "C" none) :=
    Reachable.step_add "d3" "C" none
      (Reachable.step_add "d2" "B" none
        (Reachable.step_add "d1" "A" none Reachable.init))
  have hadd : add "d3" (add "d2" (add "d1" init_state "A" none) "B" none)
      "C" none = c1_pool3 := by rfl
  rw [hadd] at r3
  exact r3

theorem c1_after_hold_reachable : Reachable c1_after_hold := by
  have hlink : link c1_pool3 2 3 = .ok (c1_after_link, []) := by
    simp [link, c1_pool3, c1_after_link, default_config, task_exists,
      get_task, get_blocked, dict_find, has_edge, would_create_cycle,
      dfs_reaches, succ_list]
  have r4 : Reachable c1_after_link :=
    Reachable.step_link c1_pool3_reachable hlink
  have hhold : mark_hold c1_after_link 2 (some "X") = .ok c1_after_hold := by
    decide
  exact Reachable.step_hold (some "X") r4 hhold

theorem c1_dangling_state_reachable : Reachable c1_dangling_state := by
  have hgone : mark_gone c1_after_hold 2 = .ok c1_dangling_state := by decide
  exact Reachable.step_gone c1_after_hold_reachable hgone

/-- C1 (amended): every state reachable by successful engine operations has an
acyclic edge set; and whenever both link arguments resolve to a live pool or
held entry and to_id already reaches from_id through one or more existing
edges, the link call fails with CycleDetected.  An error result commits no
state, so the edge set is unchanged on failure.  (The amendment: the original
claim also promised CycleDetected when an endpoint no longer resolves, but a
dangling edge left behind by gone on a held task makes such a call fail with
NotFound instead, see the counterexample.) -/
theorem C1_acyclic_and_cycle_detected (s : State) (hs : Reachable s) :
    Acyclic s.edges ∧
    (∀ f t : Nat, task_exists s f = true → task_exists s t = true →
      Relation.TransGen (estep s.edges) t f →
      link s f t = .error (.CycleDetected f t)) := by
  have hacyc := reachable_acyclic hs
  refine ⟨hacyc, ?_⟩
  intro f t hf ht hreach
  have hft : f ≠ t := by
    rintro rfl
    exact hacyc _ hreach
  have hdup : has_edge s f t = false := by
    cases hhe : has_edge s f t with
    | false => rfl
    | true =>
      exact absurd
        (Relation.TransGen.trans
          (Relation.TransGen.single (has_edge_iff.mp hhe)) hreach)
        (hacyc f)
  have hwcc : would_create_cycle s.edges f t = true :=
    would_create_cycle_iff.mpr hreach.to_reflTransGen
  simp [link, hf, ht, hft, hdup, hwcc]

/-- C1 witness: in the concrete reachable state with tasks 1, 2 and the edge
1 -> 2, the call link 2 1 fails with CycleDetected. -/
theorem C1_witness : link c1_linked_state 2 1 = .error (.CycleDetected 2 1) :=
  (C1_acyclic_and_cycle_detected c1_linked_state c1_linked_state_reachable).2
    2 1 (by decide) (by decide) (Relation.TransGen.single (by decide))

/-- C1 counterexample: the state after add A, add B, add C, link 2 3,
mark 2 hold, mark 2 gone is reachable by successful operations and its edge
2 -> 3 dangles; to_id 2 reaches from_id 3 over the existing edges, yet
link 3 2 fails with NotFound 2, not with CycleDetected as the claim states. -/
theorem C1_counterexample :
    Reachable c1_dangling_state ∧
    Relation.TransGen (estep c1_dangling_state.edges) 2 3 ∧
    link c1_dangling_state 3 2 = .error (.NotFound 2) := by
  refine ⟨c1_dangling_state_reachable,
    Relation.TransGen.single (by decide), ?_⟩
  simp [link, c1_dangling_state, c1_after_hold, c1_after_link, c1_pool3,
    default_config, task_exists, get_task, get_blocked, dict_find, has_edge]

/-- C3: for an inactive pool task, activation fails with DependencyIncomplete
whenever the task has at least one incoming edge, and succeeds - setting
active := true - whenever it has none and the active count is below
max_active. -/
theorem C3_activation_gating (s : State) (i : Nat) (t : Task)
    (ht : get_task s i = some t) (hina : t.active = false) :
    (get_edges_to s i ≠ [] →
      mark_active s i = .error (.DependencyIncomplete i
        ((get_edges_to s i).map Edge.from_id))) ∧
    (get_edges_to s i = [] → active_count s < s.config.max_active →
      mark_active s i = .ok { s with
        tasks := update_first s.tasks i
          (fun t2 => { t2 with active := true }) } ∧
      get_task { s with
          tasks := update_first s.tasks i
            (fun t2 => { t2 with active := true }) } i =
        some { t with active := true }) := by
  refine ⟨fun hdeps => mark_active_err_deps ht hina hdeps,
    fun hdeps hroom => ⟨mark_active_ok_of ht hina hdeps hroom, ?_⟩⟩
  show dict_find (update_first s.tasks i
    (fun t2 => { t2 with active := true })) i = some { t with active := true }
  rw [update_first_find_self, show dict_find s.tasks i = some t from ht]
  rfl

/-- C3 witness: in the reachable linked state, activating task 2 (which has
the incoming edge 1 -> 2) fails listing [1]; activating task 1 (no incoming
edge, active count 0 below the ceiling 2) succeeds. -/
theorem C3_witness :
    mark_active c1_linked_state 2 = .error (.DependencyIncomplete 2 [1]) ∧
    mark_active c1_linked_state 1 = .ok { c1_linked_state with
      tasks := update_first c1_linked_state.tasks 1
        (fun t2 => { t2 with active := true }) } := by
  constructor
  · have h := (C3_activation_gating c1_linked_state 2 ⟨2, "B", false, "d2"⟩
      (by decide) rfl).1 (by decide)
    rw [show (get_edges_to c1_linked_state 2).map Edge.from_id = [1] from
      by decide] at h
    exact h
  · exact ((C3_activation_gating c1_linked_state 1 ⟨1, "A", false, "d1"⟩
      (by decide) rfl).2 (by decide) (by decide)).1

/-- C4: completing a pool task with no incoming edges removes it from the
pool, deletes every edge touching it (keeping all the others), and appends a
history entry stamped with the current time and carrying created_at forward;
with an incoming edge it fails with DependencyIncomplete and commits
nothing.  The Nodup hypothesis is the unique-key dict discipline of the
embedding. -/
theorem C4_done_removes_and_logs (now : String) (s : State) (i : Nat)
    (t : Task) (ht : get_task s i = some t)
    (hnd : (s.tasks.map Prod.fst).Nodup) :
    (get_edges_to s i = [] →
      ∃ s2, mark_done now s i = .ok s2 ∧
        get_task s2 i = none ∧
        (∀ e ∈ s2.edges, e.from_id ≠ i ∧ e.to_id ≠ i) ∧
        (∀ e ∈ s.edges, e.from_id ≠ i → e.to_id ≠ i → e ∈ s2.edges) ∧
        s2.history = s.history ++ [⟨i, t.title, now, t.created_at⟩] ∧
        s2.blocked = s.blocked ∧ s2.next_id = s.next_id) ∧
    (get_edges_to s i ≠ [] →
      mark_done now s i = .error (.DependencyIncomplete i
        ((get_edges_to s i).map Edge.from_id))) := by
  constructor
  · intro hdeps
    refine ⟨_, mark_done_ok_of ht hdeps, ?_, ?_, ?_, rfl, rfl, rfl⟩
    · exact dict_erase_find_self s.tasks i hnd
    · intro e he
      simpa using (List.mem_filter.mp he).2
    · intro e he h1 h2
      exact List.mem_filter.mpr ⟨he, by simp [h1, h2]⟩
  · exact fun hdeps => mark_done_err_deps ht hdeps

/-- C4 witness: in the reachable linked state, completing task 1 (no
incoming edge) succeeds and deletes the edge 1 -> 2; completing task 2
fails listing [1]. -/
theorem C4_witness :
    (∃ s2, mark_done "T" c1_linked_state 1 = .ok s2 ∧
      get_task s2 1 = none ∧ s2.history =
        [⟨1, "A", "T", "d1"⟩]) ∧
    mark_done "T" c1_linked_state 2 =
      .error (.DependencyIncomplete 2 [1]) := by
  constructor
  · obtain ⟨s2, hok, hget, _, _, hhist, _, _⟩ :=
      (C4_done_removes_and_logs "T" c1_linked_state 1 ⟨1, "A", false, "d1"⟩
        (by decide) (by decide)).1 (by decide)
    exact ⟨s2, hok, hget, by simpa using hhist⟩
  · have h := (C4_done_removes_and_logs "T" c1_linked_state 2
      ⟨2, "B", false, "d2"⟩ (by decide) (by decide)).2 (by decide)
    rw [show (get_edges_to c1_linked_state 2).map Edge.from_id = [1] from
      by decide] at h
    exact h

/-- C5: with the active count exactly at max_active, activating a further
inactive pool task with no incoming edges fails with MaxActiveReached (an
error commits no state); after deactivating, or completing, any one of the
active tasks, the same activation succeeds. -/
theorem C5_ceiling_enforcement (s : State) (i : Nat) (t : Task)
    (ht : get_task s i = some t) (hina : t.active = false)
    (hdeps : get_edges_to s i = [])
    (hfull : active_count s = s.config.max_active) :
    mark_active s i = .error (.MaxActiveReached s.config.max_active) ∧
    (∀ a ta, get_task s a = some ta → ta.active = true →
      ∃ s2, mark_inactive s a = .ok s2 ∧
        ∃ s3, mark_active s2 i = .ok s3) ∧
    (∀ a ta now, get_task s a = some ta → ta.active = true →
      get_edges_to s a = [] →
      ∃ s2, mark_done now s a = .ok s2 ∧
        ∃ s3, mark_active s2 i = .ok s3) := by
  refine ⟨mark_active_err_max ht hina hdeps (le_of_eq hfull.symm), ?_, ?_⟩
  · intro a ta ha hact
    have hai : a ≠ i := by
      rintro rfl
      rw [ht] at ha
      cases ha
      rw [hina] at hact
      exact Bool.noConfusion hact
    refine ⟨_, mark_inactive_ok_of ha hact, _, mark_active_ok_of ?_ hina ?_ ?_⟩
    · show dict_find (update_first s.tasks a
        (fun t2 => { t2 with active := false })) i = some t
      rw [update_first_find_other s.tasks a i _ hai.symm]
      exact ht
    · exact hdeps
    · show ((update_first s.tasks a
        (fun t2 => { t2 with active := false })).filter
          (fun p => p.2.active)).length < s.config.max_active
      have h1 := filter_active_update_false s.tasks a ta ha hact
      have h2 : (s.tasks.filter (fun p => p.2.active)).length =
          s.config.max_active := hfull
      omega
  · intro a ta now ha hact hdepsa
    have hai : a ≠ i := by
      rintro rfl
      rw [ht] at ha
      cases ha
      rw [hina] at hact
      exact Bool.noConfusion hact
    refine ⟨_, mark_done_ok_of ha hdepsa, _, mark_active_ok_of ?_ hina ?_ ?_⟩
    · show dict_find (dict_erase s.tasks a) i = some t
      rw [dict_erase_find_other s.tasks a i hai.symm]
      exact ht
    · show (s.edges.filter
        (fun e => e.from_id ≠ a ∧ e.to_id ≠ a)).filter
          (fun e => e.to_id == i) = []
      rw [List.filter_eq_nil_iff]
      intro e he
      have he1 := (List.mem_filter.mp he).1
      have : ∀ e2 ∈ s.edges, ¬ (e2.to_id == i) = true := by
        rw [← List.filter_eq_nil_iff]
        exact hdeps
      exact this e he1
    · show ((dict_erase s.tasks a).filter
        (fun p => p.2.active)).length < s.config.max_active
      have h1 := filter_active_erase s.tasks a ta ha hact
      have h2 : (s.tasks.filter (fun p => p.2.active)).length =
          s.config.max_active := hfull
      omega

/-- A reachable state at the ceiling: max_active 1, task 1 active, task 2
inactive with no incoming edges. -/
def c5_full_state : State :=
  { tasks := [(1, ⟨1, "A", true, "d1"⟩), (2, ⟨2, "B", false, "d2"⟩)]
    edges := []
    blocked := []
    history := []
    next_id := 3
    config := { default_config with max_active := 1 } }

theorem c5_full_state_reachable : Reachable c5_full_state := by
  have r2 : Reachable (add "d2" (add "d1" init_state "A" none) "B" none) :=
    Reachable.step_add "d2" "B" none
      (Reachable.step_add "d1" "A" none Reachable.init)
  have hcfg : config_set_max_active
      (add "d2" (add "d1" init_state "A" none) "B" none) 1 =
      .ok { tasks := [(1, ⟨1, "A", false, "d1"⟩), (2, ⟨2, "B", false, "d2"⟩)]
            edges := [], blocked := [], history := [], next_id := 3
            config := { default_config with max_active := 1 } } := by decide
  have r3 := Reachable.step_config_max r2 hcfg
  have hact : mark_active
      { tasks := [(1, ⟨1, "A", false, "d1"⟩), (2, ⟨2, "B", false, "d2"⟩)]
        edges := ([] : List Edge), blocked := [], history := [], next_id := 3
        config := { default_config with max_active := 1 } } 1 =
      .ok c5_full_state := by decide
  exact Reachable.step_active r3 hact

/-- C5 witness: at max_active 1 with task 1 active, activating task 2 fails
with MaxActiveReached 1, and after deactivating (or completing) task 1 the
activation of task 2 succeeds. -/
theorem C5_witness :
    mark_active c5_full_state 2 = .error (.MaxActiveReached 1) ∧
    (∃ s2, mark_inactive c5_full_state 1 = .ok s2 ∧
      ∃ s3, mark_active s2 2 = .ok s3) ∧
    (∃ s2, mark_done "T" c5_full_state 1 = .ok s2 ∧
      ∃ s3, mark_active s2 2 = .ok s3) := by
  have h := C5_ceiling_enforcement c5_full_state 2 ⟨2, "B", false, "d2"⟩
    (by decide) rfl (by decide) (by decide)
  exact ⟨h.1, h.2.1 1 ⟨1, "A", true, "d1"⟩ (by decide) rfl,
    h.2.2 1 ⟨1, "A", true, "d1"⟩ "T" (by decide) rfl (by decide)⟩

/-- C6 (code bug): in the reachable state where task 2 is held with the edge
2 -> 3 still in the edge set, a successful gone on 2 takes the held branch,
which deletes the blocked entry but - unlike the pool branch - performs no
edge cleanup, so the edge with from_id = 2 survives, dangling. -/
theorem C6_held_gone_leaves_dangling_edge :
    Reachable c1_after_hold ∧
    get_blocked c1_after_hold 2 = some ⟨2, "B", "X", "d2"⟩ ∧
    mark_gone c1_after_hold 2 = .ok c1_dangling_state ∧
    c1_dangling_state.edges = [⟨2, 3⟩] :=
  ⟨c1_after_hold_reachable, by decide, by decide, by decide⟩

/-- A reachable state whose incoming edges of task 1 were inserted in the
order 3 -> 1, then 2 -> 1. -/
def c8_state : State :=
  { tasks := [(1, ⟨1, "A", false, "d1"⟩), (2, ⟨2, "B", false, "d2"⟩),
              (3, ⟨3, "C", false, "d3"⟩)]
    edges := [⟨3, 1⟩, ⟨2, 1⟩]
    blocked := []
    history := []
    next_id := 4
    config := default_config }

theorem c8_state_reachable : Reachable c8_state := by
  have h1 : link c1_pool3 3 1 = .ok ({ c1_pool3 with edges := [⟨3, 1⟩] }, []) := by
    simp [link, c1_pool3, default_config, task_exists, get_task, get_blocked,
      dict_find, has_edge, would_create_cycle, dfs_reaches, succ_list]
  have r1 := Reachable.step_link c1_pool3_reachable h1
  have h2 : link { c1_pool3 with edges := [⟨3, 1⟩] } 2 1 =
      .ok (c8_state, []) := by
    simp [link, c1_pool3, c8_state, default_config, task_exists, get_task,
      get_blocked, dict_find, has_edge, would_create_cycle, dfs_reaches,
      succ_list]
  exact Reachable.step_link r1 h2

/-- c8_state with task 1 already active: reachable because the task can be
activated while it still has no incoming edges, and link never reads the
active flag, so both edges are added afterwards. -/
def c8_active_state : State :=
  { tasks := [(1, ⟨1, "A", true, "d1"⟩), (2, ⟨2, "B", false, "d2"⟩),
              (3, ⟨3, "C", false, "d3"⟩)]
    edges := [⟨3, 1⟩, ⟨2, 1⟩]
    blocked := []
    history := []
    next_id := 4
    config := default_config }

theorem c8_active_state_reachable : Reachable c8_active_state := by
  have h0 : mark_active c1_pool3 1 =
      .ok { c1_pool3 with
        tasks := [(1, ⟨1, "A", true, "d1"⟩), (2, ⟨2, "B", false, "d2"⟩),
                  (3, ⟨3, "C", false, "d3"⟩)] } := by decide
  have r0 := Reachable.step_active c1_pool3_reachable h0
  have h1 : link { c1_pool3 with
      tasks := [(1, ⟨1, "A", true, "d1"⟩), (2, ⟨2, "B", false, "d2"⟩),
                (3, ⟨3, "C", false, "d3"⟩)] } 3 1 =
      .ok ({ c8_active_state with edges := [⟨3, 1⟩] }, []) := by
    simp [link, c1_pool3, c8_active_state, default_config, task_exists,
      get_task, get_blocked, dict_find, has_edge, would_create_cycle,
      dfs_reaches, succ_list]
  have r1 := Reachable.step_link r0 h1
  have h2 : link { c8_active_state with edges := [⟨3, 1⟩] } 2 1 =
      .ok (c8_active_state, []) := by
    simp [link, c8_active_state, default_config, task_exists, get_task,
      get_blocked, dict_find, has_edge, would_create_cycle, dfs_reaches,
      succ_list]
  exact Reachable.step_link r1 h2

/-- C8 counterexample: with the incoming edges of task 1 inserted as 3 -> 1
then 2 -> 1 (a reachable state), the failing activation reports the blocking
ids as [3, 2] - the edge-list order - which is not ascending. -/
theorem C8_counterexample :
    Reachable c8_state ∧
    mark_active c8_state 1 = .error (.DependencyIncomplete 1 [3, 2]) ∧
    ¬ List.Sorted (· ≤ ·) [3, 2] :=
  ⟨c8_state_reachable, by decide, by decide⟩

/-- C8 (amended): a failing activation or completion with unresolved incoming
edges lists the blocking from_id values in the order the incoming edges stand
in the edge list (their insertion order), not sorted.  mark done never reads
the active flag, so its conjunct is unconditional; activating an already
active task is a no-op success, so a failing activation exists exactly for an
inactive task - the last conjunct records that exhaustiveness. -/
theorem C8_deps_listed_in_edge_order (s : State) (i : Nat) (t : Task)
    (ht : get_task s i = some t) (hne : get_edges_to s i ≠ [])
    (now : String) :
    mark_done now s i = .error (.DependencyIncomplete i
      ((s.edges.filter (fun e => e.to_id == i)).map Edge.from_id)) ∧
    (t.active = false →
      mark_active s i = .error (.DependencyIncomplete i
        ((s.edges.filter (fun e => e.to_id == i)).map Edge.from_id))) ∧
    (t.active = true → mark_active s i = .ok s) :=
  ⟨mark_done_err_deps ht hne,
   fun hina => mark_active_err_deps ht hina hne,
   fun hact => by unfold mark_active; rw [ht]; simp [hact]⟩

/-- C8 witness: at the reachable state with edges [3 -> 1, 2 -> 1] both the
failing activation and the failing completion of the inactive task 1 report
[3, 2]; at the reachable variant where task 1 was activated before the two
links were made, the completion still fails with the same list [3, 2]. -/
theorem C8_witness :
    mark_active c8_state 1 = .error (.DependencyIncomplete 1 [3, 2]) ∧
    mark_done "T" c8_state 1 = .error (.DependencyIncomplete 1 [3, 2]) ∧
    Reachable c8_active_state ∧
    mark_done "T" c8_active_state 1 =
      .error (.DependencyIncomplete 1 [3, 2]) := by
  have h1 := C8_deps_listed_in_edge_order c8_state 1 ⟨1, "A", false, "d1"⟩
    (by decide) (by decide) "T"
  have h2 := C8_deps_listed_in_edge_order c8_active_state 1
    ⟨1, "A", true, "d1"⟩ (by decide) (by decide) "T"
  rw [show (c8_state.edges.filter (fun e => e.to_id == 1)).map Edge.from_id =
    [3, 2] from by decide] at h1
  rw [show (c8_active_state.edges.filter
    (fun e => e.to_id == 1)).map Edge.from_id = [3, 2] from by decide] at h2
  exact ⟨h1.2.1 rfl, h1.1, c8_active_state_reachable, h2.1⟩

/-- The persisted shape of a Task (Task.to_dict / Task.from_dict): fields the
parser reads with a default are optional. -/
structure TaskDict where
  id : Nat
  title : String
  active : Option Bool
  created_at : Option String
deriving Repr, DecidableEq

def task_to_dict (t : Task) : TaskDict :=
  ⟨t.id, t.title, some t.active, some t.created_at⟩

def task_from_dict (d : TaskDict) : Task :=
  ⟨d.id, d.title, d.active.getD false, d.created_at.getD ""⟩

/-- The persisted shape of an Edge (keys "from" and "to"). -/
structure EdgeDict where
  edge_from : Nat
  edge_to : Nat
deriving Repr, DecidableEq

def edge_to_dict (e : Edge) : EdgeDict := ⟨e.from_id, e.to_id⟩

def edge_from_dict (d : EdgeDict) : Edge := ⟨d.edge_from, d.edge_to⟩

/-- The persisted shape of a BlockedTask (blocker is required). -/
structure BlockedDict where
  id : Nat
  title : String
  blocker : String
  created_at : Option String
deriving Repr, DecidableEq

def blocked_to_dict (b : BlockedTask) : BlockedDict :=
  ⟨b.id, b.title, b.blocker, some b.created_at⟩

def blocked_from_dict (d : BlockedDict) : BlockedTask :=
  ⟨d.id, d.title, d.blocker, d.created_at.getD ""⟩

/-- The persisted shape of a HistoryEntry (completed_at is required). -/
structure HistoryDict where
  id : Nat
  title : String
  completed_at : String
  created_at : Option String
deriving Repr, DecidableEq

def history_to_dict (h : HistoryEntry) : HistoryDict :=
  ⟨h.id, h.title, h.completed_at, some h.created_at⟩

def history_from_dict (d : HistoryDict) : HistoryEntry :=
  ⟨d.id, d.title, d.completed_at, d.created_at.getD ""⟩

/-- The persisted shape of ShareConfig: the stored values may themselves be
null (inner Option) and the keys may be absent (outer Option). -/
structure ShareDict where
  enabled : Option Bool
  gist_id : Option (Option String)
  gist_url : Option (Option String)
deriving Repr, DecidableEq

def share_to_dict (c : ShareConfig) : ShareDict :=
  ⟨some c.enabled, some c.gist_id, some c.gist_url⟩

def share_from_dict (d : ShareDict) : ShareConfig :=
  ⟨d.enabled.getD false, d.gist_id.getD none, d.gist_url.getD none⟩

/-- The persisted shape of Config. -/
structure ConfigDict where
  max_active : Option Nat
  stale_days : Option Nat
  share : Option ShareDict
deriving Repr, DecidableEq

def config_to_dict (c : Config) : ConfigDict :=
  ⟨some c.max_active, some c.stale_days, some (share_to_dict c.share)⟩

def config_from_dict (d : ConfigDict) : Config :=
  ⟨d.max_active.getD 2, d.stale_days.getD 14,
   share_from_dict (d.share.getD ⟨none, none, none⟩)⟩

/-- The persisted shape of State (State.to_dict / State.from_dict); every
top-level key is read with a default by from_dict. -/
structure StateDict where
  tasks : Option (List (Nat × TaskDict))
  edges : Option (List EdgeDict)
  blocked : Option (List BlockedDict)
  history : Option (List HistoryDict)
  next_id : Option Nat
  config : Option ConfigDict
deriving Repr, DecidableEq

def state_to_dict (s : State) : StateDict :=
  ⟨some (s.tasks.map (fun p => (p.1, task_to_dict p.2))),
   some (s.edges.map edge_to_dict),
   some (s.blocked.map blocked_to_dict),
   some (s.history.map history_to_dict),
   some s.next_id,
   some (config_to_dict s.config)⟩

def state_from_dict (d : StateDict) : State :=
  ⟨(d.tasks.getD []).map (fun p => (p.1, task_from_dict p.2)),
   (d.edges.getD []).map edge_from_dict,
   (d.blocked.getD []).map blocked_from_dict,
   (d.history.getD []).map history_from_dict,
   d.next_id.getD 1,
   config_from_dict (d.config.getD ⟨none, none, none⟩)⟩

theorem task_round_trip (t : Task) : task_from_dict (task_to_dict t) = t := rfl

theorem edge_round_trip (e : Edge) : edge_from_dict (edge_to_dict e) = e := rfl

theorem blocked_round_trip (b : BlockedTask) :
    blocked_from_dict (blocked_to_dict b) = b := rfl

theorem history_round_trip (h : HistoryEntry) :
    history_from_dict (history_to_dict h) = h := rfl

theorem config_round_trip (c : Config) :
    config_from_dict (config_to_dict c) = c := rfl

/-- C9: serializing a state to the persisted dictionary shape and parsing it
back yields an equal state - the same tasks map, edge list, held list,
history list, next_id and config. -/
theorem C9_round_trip (s : State) : state_from_dict (state_to_dict s) = s := by
  rcases s with ⟨tasks, edges, blocked, history, nid, cfg⟩
  simp [state_from_dict, state_to_dict, task_round_trip, edge_round_trip,
    blocked_round_trip, history_round_trip, config_round_trip, List.map_map,
    Function.comp_def, Prod.mk.eta]

/-- C9 witness: the round trip at a concrete populated state. -/
theorem C9_witness : state_from_dict (state_to_dict c1_after_hold) =
    c1_after_hold :=
  C9_round_trip c1_after_hold

/-- The stale loop of the stale command over the pool values, parameterised
by the timestamp parser (datetime.fromisoformat abstracted into an arbitrary
partial parse into a linear time order): skip active tasks, skip tasks whose
created_at is empty (created_datetime returns None), abort with none when a
non-empty timestamp fails to parse (fromisoformat raises), otherwise keep
exactly the tasks created strictly before the cutoff. -/
def stale_tasks_filter (parse : String → Option Int) (cutoff : Int) :
    List Task → Option (List Task)
  | [] => some []
  | t :: ts =>
    if t.active then stale_tasks_filter parse cutoff ts
    else if t.created_at = "" then stale_tasks_filter parse cutoff ts
    else
      match parse t.created_at with
      | none => none
      | some d =>
        if d < cutoff then (stale_tasks_filter parse cutoff ts).map (t :: ·)
        else stale_tasks_filter parse cutoff ts

/-- The stale loop over the blocked list (no active flag). -/
def stale_blocked_filter (parse : String → Option Int) (cutoff : Int) :
    List BlockedTask → Option (List BlockedTask)
  | [] => some []
  | b :: bs =>
    if b.created_at = "" then stale_blocked_filter parse cutoff bs
    else
      match parse b.created_at with
      | none => none
      | some d =>
        if d < cutoff then (stale_blocked_filter parse cutoff bs).map (b :: ·)
        else stale_blocked_filter parse cutoff bs

/-- The stale command: both loops over the state. -/
def stale_lists (parse : String → Option Int) (cutoff : Int) (s : State) :
    Option (List Task × List BlockedTask) :=
  match stale_tasks_filter parse cutoff (s.tasks.map Prod.snd) with
  | none => none
  | some st =>
    match stale_blocked_filter parse cutoff s.blocked with
    | none => none
    | some sb => some (st, sb)

theorem stale_tasks_filter_mem {parse : String → Option Int} {cutoff : Int} :
    ∀ {l : List Task} {res : List Task},
    stale_tasks_filter parse cutoff l = some res →
    ∀ t ∈ res, t.active = false ∧ t.created_at ≠ "" ∧
      ∃ d, parse t.created_at = some d ∧ d < cutoff := by
  intro l
  induction l with
  | nil =>
    intro res h t ht
    simp [stale_tasks_filter] at h
    subst h
    simp at ht
  | cons x xs ih =>
    intro res h t ht
    unfold stale_tasks_filter at h
    split_ifs at h with h1 h2
    · exact ih h t ht
    · exact ih h t ht
    · split at h
      · exact Option.noConfusion h
      · rename_i d hp
        split_ifs at h with h3
        · rcases hrec : stale_tasks_filter parse cutoff xs with _ | res2 <;>
            rw [hrec] at h
          · exact Option.noConfusion h
          · have hcons : x :: res2 = res := Option.some.inj h
            subst hcons
            rcases List.mem_cons.mp ht with rfl | ht2
            · exact ⟨by simpa using h1, h2, d, hp, h3⟩
            · exact ih hrec t ht2
        · exact ih h t ht

theorem stale_blocked_filter_mem {parse : String → Option Int}
    {cutoff : Int} :
    ∀ {l : List BlockedTask} {res : List BlockedTask},
    stale_blocked_filter parse cutoff l = some res →
    ∀ b ∈ res, b.created_at ≠ "" ∧
      ∃ d, parse b.created_at = some d ∧ d < cutoff := by
  intro l
  induction l with
  | nil =>
    intro res h b hb
    simp [stale_blocked_filter] at h
    subst h
    simp at hb
  | cons x xs ih =>
    intro res h b hb
    unfold stale_blocked_filter at h
    split_ifs at h with h1
    · exact ih h b hb
    · split at h
      · exact Option.noConfusion h
      · rename_i d hp
        split_ifs at h with h3
        · rcases hrec : stale_blocked_filter parse cutoff xs with _ | res2 <;>
            rw [hrec] at h
          · exact Option.noConfusion h
          · have hcons : x :: res2 = res := Option.some.inj h
            subst hcons
            rcases List.mem_cons.mp hb with rfl | hb2
            · exact ⟨h1, d, hp, h3⟩
            · exact ih hrec b hb2
        · exact ih h b hb

/-- C10: whenever the stale command produces its lists, every reported pool
task is inactive with a non-empty, parseable creation timestamp strictly
before the cutoff, and every reported held task has a non-empty, parseable
creation timestamp strictly before the cutoff; in particular a task whose
created_at is the empty string is never classified stale, whatever the
cutoff. -/
theorem C10_stale_requires_parseable_timestamp
    (parse : String → Option Int) (cutoff : Int) (s : State)
    (res : List Task × List BlockedTask)
    (h : stale_lists parse cutoff s = some res) :
    (∀ t ∈ res.1, t.active = false ∧ t.created_at ≠ "" ∧
      ∃ d, parse t.created_at = some d ∧ d < cutoff) ∧
    (∀ b ∈ res.2, b.created_at ≠ "" ∧
      ∃ d, parse b.created_at = some d ∧ d < cutoff) := by
  unfold stale_lists at h
  rcases h1 : stale_tasks_filter parse cutoff (s.tasks.map Prod.snd)
    with _ | st <;> rw [h1] at h
  · exact absurd h (by simp)
  · rcases h2 : stale_blocked_filter parse cutoff s.blocked
      with _ | sb <;> rw [h2] at h
    · exact absurd h (by simp)
    · simp only [Option.some.injEq] at h
      subst h
      exact ⟨stale_tasks_filter_mem h1, stale_blocked_filter_mem h2⟩

/-- A single concrete parser for the C10 witness. -/
def c10_parse (c : String) : Option Int := if c = "p" then some 0 else none

/-- A state with an empty-created inactive pool task, a parseable stale pool
task, and an empty-created held task. -/
def c10_state : State :=
  { tasks := [(1, ⟨1, "E", false, ""⟩), (2, ⟨2, "P", false, "p"⟩)]
    edges := []
    blocked := [⟨3, "H", "X", ""⟩]
    history := []
    next_id := 4
    config := default_config }

/-- C10 witness: the stale computation at the concrete state reports exactly
the parseable old task, and the reported task has a non-empty timestamp. -/
theorem C10_witness :
    stale_lists c10_parse 1 c10_state = some ([⟨2, "P", false, "p"⟩], []) ∧
    (∀ t ∈ [(⟨2, "P", false, "p"⟩ : Task)], t.created_at ≠ "") := by
  have heval : stale_lists c10_parse 1 c10_state =
      some ([⟨2, "P", false, "p"⟩], []) := by decide
  have h := C10_stale_requires_parseable_timestamp c10_parse 1 c10_state
    ([⟨2, "P", false, "p"⟩], []) heval
  exact ⟨heval, fun t ht => (h.1 t ht).2.1⟩

/-- The id-collection loop of _remap_state: pool keys, blocked ids, history
ids (a Python set, here a list about to be dedup'd and sorted). -/
def all_imported_ids (s : State) : List Nat :=
  s.tasks.map Prod.fst ++ s.blocked.map BlockedTask.id ++
    s.history.map HistoryEntry.id

/-- sorted(all_ids): the distinct collected ids in ascending order. -/
def sorted_ids (s : State) : List Nat :=
  (all_imported_ids s).dedup.insertionSort (· ≤ ·)

/-- The id_map built by _remap_state: old id to start_id + rank. -/
def id_map_list (s : State) (start_id : Nat) : List (Nat × Nat) :=
  (sorted_ids s).enum.map (fun p => (p.2, start_id + p.1))

/-- id_map[x]: total on every id the code feeds it (a missing key would be a
Python KeyError); off that domain it returns x itself. -/
def apply_id_map (m : List (Nat × Nat)) (x : Nat) : Nat :=
  (dict_find m x).getD x

/-- _remap_state: remapped state plus the id mapping. -/
def remap_state (imported : State) (start_id : Nat) :
    State × List (Nat × Nat) :=
  ({ tasks := imported.tasks.map (fun p =>
       (apply_id_map (id_map_list imported start_id) p.1,
        { id := apply_id_map (id_map_list imported start_id) p.1
          title := p.2.title
          active := p.2.active
          created_at := p.2.created_at }))
     edges := imported.edges.filterMap (fun e =>
       if (dict_find (id_map_list imported start_id) e.from_id).isSome &&
          (dict_find (id_map_list imported start_id) e.to_id).isSome then
         some ⟨apply_id_map (id_map_list imported start_id) e.from_id,
               apply_id_map (id_map_list imported start_id) e.to_id⟩
       else none)
     blocked := imported.blocked.map (fun b =>
       { b with id := apply_id_map (id_map_list imported start_id) b.id })
     history := imported.history.map (fun h =>
       { h with id := apply_id_map (id_map_list imported start_id) h.id })
     next_id := start_id + (sorted_ids imported).length
     config := imported.config },
   id_map_list imported start_id)

/-- Python dict.update: insert every entry of m2 into m1 in order. -/
def dict_update {α : Type} (m1 m2 : List (Nat × α)) : List (Nat × α) :=
  m2.foldl (fun acc p => dict_insert acc p.1 p.2) m1

/-- The merge branch of the load command: remap the imported state at the
live next_id and union the collections into the live state. -/
def load_merge (current imported : State) : State × List (Nat × Nat) :=
  ({ current with
      tasks := dict_update current.tasks
        (remap_state imported current.next_id).1.tasks
      edges := current.edges ++ (remap_state imported current.next_id).1.edges
      blocked := current.blocked ++
        (remap_state imported current.next_id).1.blocked
      history := current.history ++
        (remap_state imported current.next_id).1.history
      next_id := (remap_state imported current.next_id).1.next_id },
   (remap_state imported current.next_id).2)

theorem filterMap_if_eq_filter_map {α β : Type} (p : α → Bool) (f : α → β) :
    ∀ l : List α,
    (l.filterMap (fun a => if p a then some (f a) else none)) =
      (l.filter p).map f := by
  intro l
  induction l with
  | nil => rfl
  | cons x xs ih =>
    by_cases hp : p x
    · simp [List.filterMap_cons, List.filter_cons, hp, ih]
    · simp [List.filterMap_cons, List.filter_cons, hp, ih]

theorem sorted_ids_sorted (s : State) :
    List.Sorted (· < ·) (sorted_ids s) := by
  have hs : List.Sorted (· ≤ ·) (sorted_ids s) :=
    List.sorted_insertionSort (· ≤ ·) (all_imported_ids s).dedup
  have hperm : List.Perm ((all_imported_ids s).dedup.insertionSort (· ≤ ·))
      (all_imported_ids s).dedup := List.perm_insertionSort (· ≤ ·) _
  have hnd : (sorted_ids s).Nodup :=
    hperm.nodup_iff.mpr (List.nodup_dedup _)
  have hpw : List.Pairwise (fun a b : Nat => a ≤ b ∧ a ≠ b) (sorted_ids s) :=
    hs.and hnd
  exact hpw.imp (fun h => lt_of_le_of_ne h.1 h.2)

theorem sorted_ids_mem (s : State) (x : Nat) :
    x ∈ sorted_ids s ↔ x ∈ all_imported_ids s := by
  have hperm : List.Perm ((all_imported_ids s).dedup.insertionSort (· ≤ ·))
      (all_imported_ids s).dedup := List.perm_insertionSort (· ≤ ·) _
  rw [sorted_ids]
  rw [hperm.mem_iff]
  exact List.mem_dedup

/-- C7: the remap collects the ids of imported pool, held and history,
sorts them ascending, assigns sequential new ids from start_id in that
order; every edge is rewritten through the mapping (dropped when an endpoint
is unmapped); the remapped next_id - and, for a merge at the live graph's
next_id, the merged next_id - is start_id plus the number of remapped ids. -/
theorem C7_remap_deterministic (imported : State) (start_id : Nat) :
    ((remap_state imported start_id).2.map Prod.fst).Sorted (· < ·) ∧
    (∀ x, x ∈ (remap_state imported start_id).2.map Prod.fst ↔
      x ∈ all_imported_ids imported) ∧
    (remap_state imported start_id).2.map Prod.snd =
      List.range' start_id (remap_state imported start_id).2.length ∧
    (remap_state imported start_id).1.edges =
      (imported.edges.filter (fun e =>
        (dict_find (remap_state imported start_id).2 e.from_id).isSome &&
        (dict_find (remap_state imported start_id).2 e.to_id).isSome)).map
      (fun e => ⟨apply_id_map (remap_state imported start_id).2 e.from_id,
                 apply_id_map (remap_state imported start_id).2 e.to_id⟩) ∧
    (remap_state imported start_id).1.next_id =
      start_id + (remap_state imported start_id).2.length ∧
    (∀ current : State, current.next_id = start_id →
      (load_merge current imported).1.next_id =
        start_id + (remap_state imported start_id).2.length) := by
  have h1 : (id_map_list imported start_id).map Prod.fst =
      sorted_ids imported := by
    unfold id_map_list
    rw [List.map_map]
    rw [show (Prod.fst ∘ fun p : Nat × Nat => (p.2, start_id + p.1)) =
      Prod.snd from rfl]
    exact List.enum_map_snd _
  have hlen : (id_map_list imported start_id).length =
      (sorted_ids imported).length := by
    unfold id_map_list
    rw [List.length_map, List.enum_length]
  have h3 : (id_map_list imported start_id).map Prod.snd =
      List.range' start_id (id_map_list imported start_id).length := by
    rw [hlen]
    unfold id_map_list
    rw [List.map_map]
    rw [show (Prod.snd ∘ fun p : Nat × Nat => (p.2, start_id + p.1)) =
      ((start_id + ·) ∘ Prod.fst) from rfl]
    rw [← List.map_map, List.enum_map_fst, List.range'_eq_map_range]
  refine ⟨?_, ?_, h3, ?_, ?_, ?_⟩
  · show ((id_map_list imported start_id).map Prod.fst).Sorted (· < ·)
    rw [h1]
    exact sorted_ids_sorted imported
  · intro x
    show x ∈ (id_map_list imported start_id).map Prod.fst ↔ _
    rw [h1]
    exact sorted_ids_mem imported x
  · exact filterMap_if_eq_filter_map _ _ imported.edges
  · show start_id + (sorted_ids imported).length =
      start_id + (id_map_list imported start_id).length
    rw [hlen]
  · intro current hcur
    show (remap_state imported current.next_id).1.next_id =
      start_id + (remap_state imported start_id).2.length
    rw [hcur]
    show start_id + (sorted_ids imported).length =
      start_id + (id_map_list imported start_id).length
    rw [hlen]

/-- An imported snapshot with ids 1 (pool), 2 (held), 3 (history), an edge
1 -> 2 and a corrupt edge 1 -> 9 whose endpoint is unmapped. -/
def c7_imported : State :=
  { tasks := [(1, ⟨1, "I1", false, "x1"⟩)]
    edges := [⟨1, 2⟩, ⟨1, 9⟩]
    blocked := [⟨2, "I2", "Y", "x2"⟩]
    history := [⟨3, "I3", "z", "x3"⟩]
    next_id := 4
    config := default_config }

/-- A live graph whose next_id is 6. -/
def c7_current : State :=
  { tasks := []
    edges := []
    blocked := []
    history := []
    next_id := 6
    config := default_config }

/-- C7 witness: merging the snapshot with ids 1, 2, 3 into a live graph with
next_id 6 maps them to 6, 7, 8 in ascending order, rewrites the edge 1 -> 2
to 6 -> 7, drops the edge 1 -> 9, and the merged next_id is 6 + 3 = 9. -/
theorem C7_witness :
    (remap_state c7_imported 6).2 = [(1, 6), (2, 7), (3, 8)] ∧
    (remap_state c7_imported 6).1.edges = [⟨6, 7⟩] ∧
    (load_merge c7_current c7_imported).1.next_id = 9 := by
  have h := C7_remap_deterministic c7_imported 6
  have hm := h.2.2.2.2.2 c7_current rfl
  refine ⟨by decide, by decide, ?_⟩
  rw [hm, show (remap_state c7_imported 6).2.length = 3 from by decide]

theorem dict_erase_sublist {α : Type} (m : List (Nat × α)) (k : Nat) :
    (dict_erase m k).Sublist m := by
  induction m with
  | nil => simp [dict_erase]
  | cons p rest ih =>
    rcases p with ⟨k2, v⟩
    by_cases hk : k2 = k
    · simp only [dict_erase, if_pos hk]
      exact (List.sublist_cons_self _ _)
    · simp only [dict_erase, if_neg hk]
      exact ih.cons₂ _

theorem dict_find_isSome_iff {α : Type} (m : List (Nat × α)) (x : Nat) :
    (dict_find m x).isSome = true ↔ x ∈ m.map Prod.fst := by
  induction m with
  | nil => simp [dict_find]
  | cons p rest ih =>
    rcases p with ⟨k2, v⟩
    by_cases hk : k2 = x
    · subst hk
      simp [dict_find_cons]
    · simp [dict_find_cons, hk, ih, Ne.symm hk]

theorem get_blocked_state_eq (s : State) (bl : List BlockedTask) (x : Nat)
    (h : s.blocked = bl) :
    get_blocked s x = bl.find? (fun b2 => b2.id == x) := by
  rw [get_blocked, h]

/-- The cascade loop: taking the ids of a duplicate-free worklist out of a
pool with unique keys, disjoint from the held list, erases exactly the
worklist ids from the pool, appends held entries (blocker "Task f") for the
worklist ids found in the pool, leaves every other entry alone, and reports
exactly the moved (id, title) pairs. -/
theorem move_all_spec (f : Nat) :
    ∀ (l : List Nat) (s : State), l.Nodup →
    (s.tasks.map Prod.fst).Nodup →
    (∀ p ∈ s.tasks, get_blocked s p.1 = none) →
    (∀ x ∈ l, get_task (move_all s f l).1 x = none) ∧
    (∀ x, x ∉ l → get_task (move_all s f l).1 x = get_task s x) ∧
    (∀ x, x ∉ l → get_blocked (move_all s f l).1 x = get_blocked s x) ∧
    (∀ x ∈ l, (get_blocked s x).isSome →
      get_blocked (move_all s f l).1 x = get_blocked s x) ∧
    (∀ x ∈ l, get_blocked s x = none →
      get_blocked (move_all s f l).1 x = (get_task s x).map
        (fun t => ⟨x, t.title, "Task " ++ toString f, t.created_at⟩)) ∧
    (move_all s f l).2 = l.filterMap
      (fun tid => (get_task s tid).map (fun t => (tid, t.title))) := by
  intro l
  induction l with
  | nil =>
    intro s _ _ _
    refine ⟨?_, ?_, ?_, ?_, ?_, ?_⟩ <;> simp [move_all]
  | cons tid rest ih =>
    intro s hlnd hknd hdisj
    have hlnd2 : rest.Nodup := hlnd.of_cons
    have htid : tid ∉ rest := by
      intro hc
      exact (List.nodup_cons.mp hlnd).1 hc
    rcases hmt : get_task s tid with _ | t
    · -- tid is not in the pool: nothing moves for it
      have hstep : move_all s f (tid :: rest) = move_all s f rest := by
        simp only [move_all, move_to_hold, hmt]
      obtain ⟨g1, g2, g3, g4, g5, g6⟩ := ih s hlnd2 hknd hdisj
      rw [hstep]
      refine ⟨?_, ?_, ?_, ?_, ?_, ?_⟩
      · intro x hx
        rcases List.mem_cons.mp hx with rfl | hx2
        · by_cases hr : x ∈ rest
          · exact g1 x hr
          · rw [g2 x hr]
            exact hmt
        · exact g1 x hx2
      · intro x hx
        exact g2 x (fun hc => hx (List.mem_cons_of_mem _ hc))
      · intro x hx
        exact g3 x (fun hc => hx (List.mem_cons_of_mem _ hc))
      · intro x hx hb
        rcases List.mem_cons.mp hx with rfl | hx2
        · by_cases hr : x ∈ rest
          · exact g4 x hr hb
          · exact g3 x hr
        · exact g4 x hx2 hb
      · intro x hx hb
        rcases List.mem_cons.mp hx with rfl | hx2
        · by_cases hr : x ∈ rest
          · exact g5 x hr hb
          · rw [g3 x hr, hb, hmt]
            rfl
        · exact g5 x hx2 hb
      · rw [g6]
        simp [List.filterMap_cons, hmt]
    · -- tid is in the pool: it moves to hold
      have hbt : get_blocked s tid = none := by
        have hmem : tid ∈ s.tasks.map Prod.fst := by
          rw [← dict_find_isSome_iff]
          rw [show dict_find s.tasks tid = some t from hmt]
          rfl
        rcases List.mem_map.mp hmem with ⟨p, hp, hp1⟩
        have := hdisj p hp
        rw [hp1] at this
        exact this
      have hstep : move_all s f (tid :: rest) =
          ((move_all (.mk (dict_erase s.tasks tid) s.edges
              (s.blocked ++ [⟨tid, t.title, "Task " ++ toString f,
                t.created_at⟩]) s.history s.next_id s.config) f rest).1,
           (tid, t.title) ::
            (move_all (.mk (dict_erase s.tasks tid) s.edges
              (s.blocked ++ [⟨tid, t.title, "Task " ++ toString f,
                t.created_at⟩]) s.history s.next_id s.config) f rest).2) := by
        simp only [move_all, move_to_hold, hmt]
      set s3 : State := .mk (dict_erase s.tasks tid) s.edges
        (s.blocked ++ [⟨tid, t.title, "Task " ++ toString f,
          t.created_at⟩]) s.history s.next_id s.config with hs3
      have hknd3 : (s3.tasks.map Prod.fst).Nodup :=
        ((dict_erase_sublist s.tasks tid).map Prod.fst).nodup hknd
      have hfind3 : ∀ x, x ≠ tid → get_task s3 x = get_task s x := by
        intro x hx
        show dict_find (dict_erase s.tasks tid) x = dict_find s.tasks x
        exact dict_erase_find_other s.tasks tid x hx
      have hblock3 : ∀ x, x ≠ tid → get_blocked s3 x = get_blocked s x := by
        intro x hx
        show (s.blocked ++ ([⟨tid, t.title, "Task " ++ toString f,
          t.created_at⟩] : List BlockedTask)).find?
            (fun b2 => b2.id == x) = get_blocked s x
        rw [List.find?_append]
        have hbeq : (tid == x) = false := by
          simp [Ne.symm hx]
        have : ([⟨tid, t.title, "Task " ++ toString f,
            t.created_at⟩] : List BlockedTask).find?
            (fun b2 => b2.id == x) = none := by
          simp [List.find?, hbeq]
        rw [this]
        simp [get_blocked]
      have hblocktid : get_blocked s3 tid = some ⟨tid, t.title,
          "Task " ++ toString f, t.created_at⟩ := by
        show (s.blocked ++ ([⟨tid, t.title, "Task " ++ toString f,
          t.created_at⟩] : List BlockedTask)).find?
            (fun b2 => b2.id == tid) =
          some ⟨tid, t.title, "Task " ++ toString f, t.created_at⟩
        rw [List.find?_append]
        rw [show s.blocked.find? (fun b2 => b2.id == tid) = none from hbt]
        simp [List.find?]
      have hdisj3 : ∀ p ∈ s3.tasks, get_blocked s3 p.1 = none := by
        intro p hp
        have hpk : p.1 ∈ s3.tasks.map Prod.fst := List.mem_map_of_mem _ hp
        have hne : p.1 ≠ tid := by
          intro hc
          rw [hc] at hpk
          have : (dict_find s3.tasks tid).isSome = true :=
            (dict_find_isSome_iff s3.tasks tid).mpr hpk
          rw [show dict_find s3.tasks tid = none from
            dict_erase_find_self s.tasks tid hknd] at this
          exact Bool.noConfusion this
        rw [hblock3 p.1 hne]
        have hp2 : p ∈ s.tasks := (dict_erase_sublist s.tasks tid).mem hp
        exact hdisj p hp2
      obtain ⟨g1, g2, g3, g4, g5, g6⟩ := ih s3 hlnd2 hknd3 hdisj3
      rw [hstep]
      refine ⟨?_, ?_, ?_, ?_, ?_, ?_⟩
      · intro x hx
        rcases List.mem_cons.mp hx with rfl | hx2
        · rw [g2 x htid]
          show dict_find (dict_erase s.tasks x) x = none
          exact dict_erase_find_self s.tasks x hknd
        · exact g1 x hx2
      · intro x hx
        have hxt : x ≠ tid := fun hc => hx (hc ▸ List.mem_cons_self _ _)
        have hxr : x ∉ rest := fun hc => hx (List.mem_cons_of_mem _ hc)
        rw [g2 x hxr]
        exact hfind3 x hxt
      · intro x hx
        have hxt : x ≠ tid := fun hc => hx (hc ▸ List.mem_cons_self _ _)
        have hxr : x ∉ rest := fun hc => hx (List.mem_cons_of_mem _ hc)
        rw [g3 x hxr]
        exact hblock3 x hxt
      · intro x hx hb
        rcases List.mem_cons.mp hx with rfl | hx2
        · rw [hbt] at hb
          exact Bool.noConfusion hb
        · have hxt : x ≠ tid := fun hc => htid (hc ▸ hx2)
          have hbx : (get_blocked s3 x).isSome := by
            rw [hblock3 x hxt]
            exact hb
          rw [g4 x hx2 hbx]
          exact hblock3 x hxt
      · intro x hx hb
        rcases List.mem_cons.mp hx with rfl | hx2
        · rw [g3 x htid, hblocktid, hmt]
          rfl
        · have hxt : x ≠ tid := fun hc => htid (hc ▸ hx2)
          have hbx : get_blocked s3 x = none := by
            rw [hblock3 x hxt]
            exact hb
          rw [g5 x hx2 hbx, hfind3 x hxt]
      · simp only [List.filterMap_cons, hmt]
        rw [g6]
        congr 1
        apply List.filterMap_congr
        intro x hx
        have hxt : x ≠ tid := fun hc => htid (hc ▸ hx)
        rw [hfind3 x hxt]

/-- What a successful link starting from a held task computes: the cascade
over the worklist to_id plus its descendants in the extended edge set. -/
theorem link_ok_held_elim {s s2 : State} {fr dst : Nat} {b : BlockedTask}
    {moved : List (Nat × String)}
    (hb : get_blocked s fr = some b)
    (h : link s fr dst = .ok (s2, moved)) :
    would_create_cycle s.edges fr dst = false ∧
    (s2, moved) = move_all { s with edges := s.edges ++ [⟨fr, dst⟩] } fr
      (if dst ∈ get_all_descendants (s.edges ++ [⟨fr, dst⟩]) dst then
        get_all_descendants (s.edges ++ [⟨fr, dst⟩]) dst
      else dst :: get_all_descendants (s.edges ++ [⟨fr, dst⟩]) dst) := by
  have hb2 : get_blocked { s with edges := s.edges ++ [⟨fr, dst⟩] } fr =
    some b := hb
  simp only [link] at h
  split_ifs at h with h1 h2 h3 h4 h5 h6
  · simp only [hb2] at h
    refine ⟨by simpa using h5, ?_⟩
    rw [if_pos h6]
    exact (Except.ok.inj h).symm
  · simp only [hb2] at h
    refine ⟨by simpa using h5, ?_⟩
    rw [if_neg h6]
    exact (Except.ok.inj h).symm

/-- C2: when from_id is held and link(from_id, to_id) succeeds, to_id and
every task transitively reachable from it over the edges that currently
resides in the pool moves dst held with blocker "Task from_id", tasks already
held and all tasks outside that set keep their membership, history and
next_id are untouched, and the reported moved list holds exactly the moved
tasks.  The Nodup and disjointness hypotheses are the dict-key uniqueness
and pool/held mutual exclusion of the data model. -/
theorem C2_cascade_on_link_to_held (s s2 : State) (fr dst : Nat)
    (b : BlockedTask) (moved : List (Nat × String))
    (hheld : get_blocked s fr = some b)
    (hok : link s fr dst = .ok (s2, moved))
    (hnd : (s.tasks.map Prod.fst).Nodup)
    (hdisj : ∀ p ∈ s.tasks, get_blocked s p.1 = none) :
    (∀ x : Nat, x = dst ∨ Relation.TransGen (estep s.edges) dst x →
      get_task s2 x = none) ∧
    (∀ x : Nat, ¬(x = dst ∨ Relation.TransGen (estep s.edges) dst x) →
      get_task s2 x = get_task s x) ∧
    (∀ x : Nat, ¬(x = dst ∨ Relation.TransGen (estep s.edges) dst x) →
      get_blocked s2 x = get_blocked s x) ∧
    (∀ x : Nat, x = dst ∨ Relation.TransGen (estep s.edges) dst x →
      (get_blocked s x).isSome → get_blocked s2 x = get_blocked s x) ∧
    (∀ x : Nat, x = dst ∨ Relation.TransGen (estep s.edges) dst x →
      get_blocked s x = none →
      get_blocked s2 x = (get_task s x).map
        (fun t => ⟨x, t.title, "Task " ++ toString fr, t.created_at⟩)) ∧
    (∀ x tl, (x, tl) ∈ moved ↔
      ((x = dst ∨ Relation.TransGen (estep s.edges) dst x) ∧
        ∃ t, get_task s x = some t ∧ t.title = tl)) ∧
    s2.history = s.history ∧ s2.next_id = s.next_id := by
  obtain ⟨hwcc, heq⟩ := link_ok_held_elim hheld hok
  have hnr : ¬ Relation.ReflTransGen (estep s.edges) dst fr := by
    intro hr
    rw [← would_create_cycle_iff] at hr
    rw [hr] at hwcc
    exact Bool.noConfusion hwcc
  set desc := get_all_descendants (s.edges ++ [⟨fr, dst⟩]) dst with hdesc
  set l := (if dst ∈ desc then desc else dst :: desc) with hl
  set s1 : State := { s with edges := s.edges ++ [⟨fr, dst⟩] } with hs1
  have hmemdesc : ∀ x, x ∈ desc ↔
      Relation.TransGen (estep s.edges) dst x := by
    intro x
    rw [hdesc, mem_get_all_descendants]
    constructor
    · exact fun hh => tg_append_no_reach hnr hh
    · intro hh
      refine hh.mono ?_
      rintro u v ⟨e, he, hef, het⟩
      exact ⟨e, by simp [he], hef, het⟩
  have hmeml : ∀ x, x ∈ l ↔
      (x = dst ∨ Relation.TransGen (estep s.edges) dst x) := by
    intro x
    rw [hl]
    by_cases hd : dst ∈ desc
    · rw [if_pos hd]
      constructor
      · exact fun hx => Or.inr ((hmemdesc x).mp hx)
      · rintro (rfl | hx)
        · exact hd
        · exact (hmemdesc x).mpr hx
    · rw [if_neg hd]
      constructor
      · intro hx
        rcases List.mem_cons.mp hx with rfl | hx2
        · exact Or.inl rfl
        · exact Or.inr ((hmemdesc x).mp hx2)
      · rintro (rfl | hx)
        · exact List.mem_cons_self _ _
        · exact List.mem_cons_of_mem _ ((hmemdesc x).mpr hx)
  have hlnd : l.Nodup := by
    rw [hl]
    by_cases hd : dst ∈ desc
    · rw [if_pos hd]
      exact hdesc ▸ get_all_descendants_nodup
    · rw [if_neg hd]
      exact List.nodup_cons.mpr ⟨hd, hdesc ▸ get_all_descendants_nodup⟩
  have hnd1 : (s1.tasks.map Prod.fst).Nodup := hnd
  have hdisj1 : ∀ p ∈ s1.tasks, get_blocked s1 p.1 = none := hdisj
  obtain ⟨g1, g2, g3, g4, g5, g6⟩ := move_all_spec fr l s1 hlnd hnd1 hdisj1
  have hs2 : s2 = (move_all s1 fr l).1 := congrArg Prod.fst heq
  have hmv : moved = (move_all s1 fr l).2 := congrArg Prod.snd heq
  refine ⟨?_, ?_, ?_, ?_, ?_, ?_, ?_, ?_⟩
  · intro x hM
    rw [hs2]
    exact g1 x ((hmeml x).mpr hM)
  · intro x hM
    rw [hs2]
    exact g2 x (fun hc => hM ((hmeml x).mp hc))
  · intro x hM
    rw [hs2]
    exact g3 x (fun hc => hM ((hmeml x).mp hc))
  · intro x hM hb2
    rw [hs2]
    exact g4 x ((hmeml x).mpr hM) hb2
  · intro x hM hb2
    rw [hs2]
    exact g5 x ((hmeml x).mpr hM) hb2
  · intro x tl
    rw [hmv, g6]
    rw [List.mem_filterMap]
    constructor
    · rintro ⟨a, hal, ha⟩
      rcases Option.map_eq_some'.mp ha with ⟨t, hgt, hpair⟩
      have hax : a = x := (Prod.mk.injEq .. ▸ hpair).1
      have htl : t.title = tl := (Prod.mk.injEq .. ▸ hpair).2
      subst hax
      exact ⟨(hmeml a).mp hal, t, hgt, htl⟩
    · rintro ⟨hM, t, hgt, htl⟩
      refine ⟨x, (hmeml x).mpr hM, ?_⟩
      rw [show get_task s1 x = get_task s x from rfl, hgt]
      simp [htl]
  · rw [hs2]
    exact (move_all_parts fr l s1).2.1
  · rw [hs2]
    exact (move_all_parts fr l s1).2.2.1

/-- Before the cascading link: held task 1, pool tasks 2 and 3 with the
edge 2 -> 3. -/
def c2_pre : State :=
  { tasks := [(2, ⟨2, "T", false, "e2"⟩), (3, ⟨3, "U", false, "e3"⟩)]
    edges := [⟨2, 3⟩]
    blocked := [⟨1, "H", "Alice", "e1"⟩]
    history := []
    next_id := 4
    config := default_config }

/-- After link 1 2: tasks 2 and 3 cascaded to held, blocked by "Task 1". -/
def c2_post : State :=
  { tasks := []
    edges := [⟨2, 3⟩, ⟨1, 2⟩]
    blocked := [⟨1, "H", "Alice", "e1"⟩, ⟨2, "T", "Task 1", "e2"⟩,
                ⟨3, "U", "Task 1", "e3"⟩]
    history := []
    next_id := 4
    config := default_config }

/-- C2 witness: linking held task 1 to pool task 2 moves 2 and its
descendant 3 to held with blocker "Task 1", reports exactly them, and the
untouched held task 1 keeps its entry. -/
theorem C2_witness :
    link c2_pre 1 2 = .ok (c2_post, [(2, "T"), (3, "U")]) ∧
    get_blocked c2_post 2 = some ⟨2, "T", "Task 1", "e2"⟩ ∧
    get_task c2_post 3 = none ∧
    get_blocked c2_post 1 = some ⟨1, "H", "Alice", "e1"⟩ := by
  have hok : link c2_pre 1 2 = .ok (c2_post, [(2, "T"), (3, "U")]) := by
    simp [link, c2_pre, c2_post, default_config, task_exists, get_task,
      get_blocked, dict_find, has_edge, would_create_cycle, dfs_reaches,
      succ_list, get_all_descendants, gad_aux, collect_succ, move_all,
      move_to_hold, dict_erase, List.find?]
    decide
  have h := C2_cascade_on_link_to_held c2_pre c2_post 1 2
    ⟨1, "H", "Alice", "e1"⟩ [(2, "T"), (3, "U")] (by decide) hok
    (by decide) (by decide)
  have hnoTG : ¬ Relation.TransGen (estep c2_pre.edges) 2 1 := by
    intro hh
    have hstep23 : ∀ a b2, estep c2_pre.edges a b2 → a = 2 ∧ b2 = 3 := by
      rintro a b2 ⟨e, he, hf, ht⟩
      have : e = ⟨2, 3⟩ := by simpa [c2_pre] using he
      subst this
      exact ⟨hf.symm, ht.symm⟩
    rcases Relation.TransGen.tail'_iff.mp hh with ⟨c, _, hstep⟩
    rcases hstep23 c 1 hstep with ⟨_, h31⟩
    exact absurd h31 (by decide)
  refine ⟨hok, ?_, ?_, ?_⟩
  · have h5 := h.2.2.2.2.1 2 (Or.inl rfl) (by decide)
    rw [h5]
    decide
  · exact h.1 3 (Or.inr (Relation.TransGen.single (by decide)))
  · have h3 := h.2.2.1 1 ?_
    · rw [h3]
      decide
    · rintro (h12 | hTG)
      · exact absurd h12 (by decide)
      · exact hnoTG hTG

end Wip
